import Mathlib

/-!
Verification of the flow-execution-engine core of the `cthulu` repository.

The Lean definitions below are a shallow embedding of the Rust source:

* `cthulu-backend/flows/graph.rs` — `NodeOutput` with `merge` and the
  `as_text` / `as_items` / `as_context` projections, `build_adjacency`,
  `topo_sort` (Kahn's algorithm) and `compute_levels`;
* `src/tasks/triggers/github.rs` — the polling-trigger `seed` phase and the
  `poll_loop` deduplication against the per-scope SeenSet.

Modelling conventions:

* Rust `HashMap`/`HashSet` values are modelled by total functions with a
  default (`[]`, `none`, `∅`) for absent keys, or by `Finset ℕ` for the sets
  of PR numbers; `context.extend` is modelled by an association list with
  insert-or-replace semantics, which has the same lookup behaviour.
* `HashMap` iteration order is unspecified in Rust.  The one place where the
  graph code iterates a map (building the initial Kahn queue from
  `in_degree`) is therefore modelled by an explicit `init` parameter ranging
  over permutations of the zero-in-degree ids.
* The body of a Rust `Mutex` critical section is modelled as one atomic step
  of the state-transition function (e.g. `processTick` is the whole region
  between lock and unlock in `poll_loop`).
* External I/O (the GitHub fetches) is modelled by an oracle function giving
  the outcome of each fetch; `None` is a failed fetch, `some l` a successful
  one returning the PR numbers `l`.
-/

namespace Cthulu

/-! ## Definitions (shallow embedding of the source) -/

/-- Modelled from the spec (§3): a content record; the concrete module
`tasks::sources` is not part of the provided sources, but the field list is
fixed by the tests in `flows/graph.rs` (title, url, summary, optional
timestamp, optional image).  `merge` never inspects these fields. -/
structure ContentItem where
  title : String
  url : String
  summary : String
  published : Option String
  imageUrl : Option String
deriving DecidableEq, Repr

/-- Modelled from the spec (§3): executor provenance `(cost, turns, duration)`;
the concrete module `tasks::executors` is not part of the provided sources.
`merge` only carries or drops this value, never inspects it; the numeric
types are abstracted to `Nat`. -/
structure ExecutionResult where
  cost : Nat
  turns : Nat
  duration : Nat
deriving DecidableEq, Repr

/-- A context mapping (Rust `HashMap<String, String>`), modelled as an
association list whose insert operation replaces an existing binding in
place; lookups therefore behave exactly like the hash map's. -/
abbrev Ctx := List (String × String)

/-- Lookup in a context mapping (Rust `HashMap::get`). -/
def ctxFind (m : Ctx) (k : String) : Option String :=
  (m.find? (fun kv => kv.1 = k)).map (fun kv => kv.2)

/-- Insert-or-replace one binding (what each pair of `HashMap::extend` does). -/
def ctxInsert (m : Ctx) (k v : String) : Ctx :=
  if m.any (fun kv => kv.1 = k) then
    m.map (fun kv => if kv.1 = k then (k, v) else kv)
  else
    m ++ [(k, v)]

/-- Rust `HashMap::extend`: later writes overwrite earlier ones. -/
def ctxExtend (m1 m2 : Ctx) : Ctx :=
  m2.foldl (fun a kv => ctxInsert a kv.1 kv.2) m1

/-- Type `NodeOutput` from `flows/graph.rs`: the unified output type for all node
types in the DAG. -/
inductive NodeOutput where
  | items (v : List ContentItem)
  | text (t : String) (r : Option ExecutionResult)
  | context (m : Ctx)
  | empty
  | failed
deriving DecidableEq, Repr

namespace NodeOutput

/-- Test `matches!(o, NodeOutput::Failed)` from `merge`. -/
def isFailed : NodeOutput → Bool
  | .failed => true
  | _ => false

/-- Accumulator state of the `for output in outputs` loop inside `merge`. -/
structure MergeAcc where
  items : List ContentItem
  texts : List String
  context : Ctx
  hasItems : Bool
  hasText : Bool
  hasContext : Bool

/-- One iteration of the accumulation loop inside `merge`. -/
def mergeStep (st : MergeAcc) : NodeOutput → MergeAcc
  | .items v => { st with items := st.items ++ v, hasItems := true }
  | .text t _ => { st with texts := st.texts ++ [t], hasText := true }
  | .context m => { st with context := ctxExtend st.context m, hasContext := true }
  | .empty => st
  | .failed => st

/-- Function `NodeOutput::merge` from `flows/graph.rs`: merge multiple upstream
outputs into a single input for a downstream node. -/
def merge (outputs : List NodeOutput) : NodeOutput :=
  if outputs.isEmpty then .empty
  else if outputs.any isFailed then .failed
  else
    let st := outputs.foldl mergeStep
      ⟨[], [], [], false, false, false⟩
    -- Priority: Items > Text > Context > Empty
    if st.hasItems then .items st.items
    else if st.hasText then .text (String.intercalate "\n" st.texts) none
    else if st.hasContext then .context st.context
    else .empty

/-- Projection `NodeOutput::as_text`.  The `Items` arm of the Rust code defers to
`tasks::pipeline::format_items`, a runtime-supplied formatter that is not
part of the provided sources; it is abstracted as the parameter `fmt`.
The `Context` arm iterates the hash map; the map's (unspecified) iteration
order is the order of the association list. -/
def as_text (fmt : List ContentItem → String) : NodeOutput → String
  | .items v => fmt v
  | .text t _ => t
  | .context m =>
      String.intercalate "\n" (m.map (fun kv => kv.1 ++ ": " ++ kv.2))
  | .empty => ""
  | .failed => ""

/-- Projection `NodeOutput::as_items`: extract items if this is an `Items` variant,
otherwise the empty vector. -/
def as_items : NodeOutput → List ContentItem
  | .items v => v
  | _ => []

/-- Projection `NodeOutput::as_context`: extract the context map if this is a `Context`
variant. -/
def as_context : NodeOutput → Option Ctx
  | .context m => some m
  | _ => none

end NodeOutput

/-- Type `NodeType` from the flow data model (spec §3; module `crate::flows` is
not part of the provided sources, field list fixed by the tests in
`flows/graph.rs`). -/
inductive NodeType where
  | trigger
  | source
  | filter
  | executor
  | sink
deriving DecidableEq, Repr

/-- Type `Node` from the flow data model.  The graph primitives only read `id`;
`config` and canvas position are presentation data the core ignores and are
omitted. -/
structure Node where
  id : String
  nodeType : NodeType
  kind : String
  label : String
deriving DecidableEq, Repr

/-- Type `Edge` from the flow data model: a directed reference between node ids. -/
structure Edge where
  id : String
  source : String
  target : String
deriving DecidableEq, Repr

/-- The list of node ids, in declaration order. -/
def nodeIds (nodes : List Node) : List String :=
  nodes.map (fun n => n.id)

/-- The retention test of `build_adjacency`: only edges between nodes that
exist in the flow are included. -/
def retainedEdge (nodes : List Node) (e : Edge) : Bool :=
  (nodeIds nodes).contains e.source && (nodeIds nodes).contains e.target

/-- The children list `build_adjacency` accumulates for node `x`: targets of
retained edges with source `x`, in edge order. -/
def childrenOf (nodes : List Node) (edges : List Edge) (x : String) : List String :=
  ((edges.filter (fun e => retainedEdge nodes e && e.source == x)).map (fun e => e.target))

/-- The parents list `build_adjacency` accumulates for node `x`: sources of
retained edges with target `x`, in edge order. -/
def parentsOf (nodes : List Node) (edges : List Edge) (x : String) : List String :=
  ((edges.filter (fun e => retainedEdge nodes e && e.target == x)).map (fun e => e.source))

/-- Function `build_adjacency` from `flows/graph.rs`, as the pair of total maps
(children, parents); a key absent from the Rust map reads as `[]`, which is
also what the Rust callers do with `get(..).map_or`-style access. -/
def build_adjacency (nodes : List Node) (edges : List Edge) :
    (String → List String) × (String → List String) :=
  (childrenOf nodes edges, parentsOf nodes edges)

/-- The `in_degree` map of `topo_sort`: one entry per node, the length of its
parents list. -/
def indeg0 (nodes : List Node) (edges : List Edge) (x : String) : Nat :=
  (parentsOf nodes edges x).length

/-- The set of zero-in-degree ids, in node declaration order.  The Rust code
collects them by iterating the `in_degree` `HashMap`, whose iteration order
is unspecified; admissible initial queues are exactly the permutations of
this list. -/
def zeroIds (nodes : List Node) (edges : List Edge) : List String :=
  (nodeIds nodes).filter (fun x => indeg0 nodes edges x == 0)

/-- The inner `for next in neighbors` loop of `topo_sort`: decrement each
neighbour's in-degree and collect those that reach zero, in the order they
reach zero.  (The Rust `usize` decrement cannot underflow on reachable
states; see `processNeighbors_spec`.) -/
def processNeighbors (ind : String → Nat) : List String → (String → Nat) × List String
  | [] => (ind, [])
  | c :: cs =>
      let d := ind c - 1
      let ind2 := Function.update ind c d
      let r := processNeighbors ind2 cs
      (r.1, (if d = 0 then [c] else []) ++ r.2)

/-- The `while let Some(node_id) = queue.pop_front()` loop of `topo_sort`.
`fuel` bounds the number of iterations; `topoSortWith` passes a provably
sufficient amount. -/
def kahnLoop (ch : String → List String) :
    Nat → (String → Nat) → List String → List String → List String
  | 0, _, _, srt => srt
  | _ + 1, _, [], srt => srt
  | fuel + 1, ind, q :: qs, srt =>
      let r := processNeighbors ind (ch q)
      kahnLoop ch fuel r.1 (qs ++ r.2) (srt ++ [q])

/-- The cycle error message of `topo_sort`. -/
def cycleMsg (k n : Nat) : String :=
  "flow graph has a cycle (" ++ toString k ++ " of " ++ toString n ++ " nodes sorted)"

/-- Function `topo_sort` from `flows/graph.rs`, parameterised by the initial queue
`init` (the zero-in-degree ids in the `HashMap`'s unspecified iteration
order). -/
def topoSortWith (init : List String) (nodes : List Node) (edges : List Edge) :
    Except String (List String) :=
  let srt := kahnLoop (childrenOf nodes edges)
    (nodes.length + edges.length + 1) (indeg0 nodes edges) init []
  if srt.length = nodes.length then .ok srt
  else .error (cycleMsg srt.length nodes.length)

/-- Function `topo_sort` with one admissible iteration order (declaration order). -/
def topo_sort (nodes : List Node) (edges : List Edge) : Except String (List String) :=
  topoSortWith (zeroIds nodes edges) nodes edges

/-- The edge relation of the induced graph: `eRel nodes edges u x` holds when
some retained edge runs from `u` to `x`. -/
def eRel (nodes : List Node) (edges : List Edge) (u x : String) : Prop :=
  x ∈ childrenOf nodes edges u

/-- The induced graph is acyclic: no node reaches itself through a non-empty
path of retained edges. -/
def Acyclic (nodes : List Node) (edges : List Edge) : Prop :=
  ∀ a, ¬ Relation.TransGen (eRel nodes edges) a a

/-- The `node_level` assignment loop of `compute_levels`, returning the final
level map together with `max_level`. -/
def assignLevels (pa : String → List String) (sorted : List String) :
    (String → Option Nat) × Nat :=
  sorted.foldl
    (fun st x =>
      let lv := match ((pa x).filterMap st.1).max? with
        | some m => m + 1
        | none => 0
      (Function.update st.1 x (some lv), max st.2 lv))
    (fun _ => none, 0)

/-- Operation `levels[level].push(node_id)` on the vector of level lists. -/
def pushAt (levels : List (List String)) (i : Nat) (x : String) : List (List String) :=
  levels.set i (levels.getD i [] ++ [x])

/-- Function `compute_levels` from `flows/graph.rs`: group a topologically-sorted node
list into levels for parallel execution. -/
def compute_levels (sorted : List String) (pa : String → List String) :
    List (List String) :=
  let a := assignLevels pa sorted
  sorted.foldl (fun levels x => pushAt levels ((a.1 x).getD 0) x)
    (List.replicate (a.2 + 1) [])

/-- A valid topological order for the parents map `pa`: no repeated node, and
every parent of a listed node occurs strictly earlier in the order. -/
def ValidTopo (sorted : List String) (pa : String → List String) : Prop :=
  sorted.Nodup ∧
    ∀ x ∈ sorted, ∀ p ∈ pa x, p ∈ sorted ∧ sorted.indexOf p < sorted.indexOf x

/-- The critical section of `poll_loop` (`src/tasks/triggers/github.rs`
lines 149–160): under the SeenSet lock, walk the fetched PR numbers, keep
those not yet seen, and insert them into the seen set as they are found.
Returns the updated seen set and the `new_prs` list, in fetch order. -/
def processTick (seen : Finset ℕ) (prs : List ℕ) : Finset ℕ × List ℕ :=
  prs.foldl
    (fun st pr => if pr ∈ st.1 then st else (insert pr st.1, st.2 ++ [pr]))
    (seen, [])

/-- One poll tick for one repo: a failed fetch is logged and skipped; a
successful fetch runs the critical section and then dispatches one flow run
per newly-seen PR number (tagged with the scope). -/
def pollRepoStep (fetch : String → Option (List ℕ))
    (st : String → Option (Finset ℕ)) (r : String) :
    (String → Option (Finset ℕ)) × List (String × ℕ) :=
  match fetch r with
  | none => (st, [])
  | some prs =>
      let cur := (st r).getD ∅
      let res := processTick cur prs
      (Function.update st r (some res.1), res.2.map (fun n => (r, n)))

/-- One full tick of `poll_loop`: iterate the seeded repos in order,
accumulating dispatches. -/
def pollTick (repos : List String) (fetch : String → Option (List ℕ))
    (st : String → Option (Finset ℕ)) :
    (String → Option (Finset ℕ)) × List (String × ℕ) :=
  repos.foldl
    (fun acc r =>
      let s := pollRepoStep fetch acc.1 r
      (s.1, acc.2 ++ s.2))
    (st, [])

/-- The whole polling loop over a finite trace of ticks; each tick supplies
the fetch outcome for every repo.  Returns the final SeenSet map and all
dispatched `(scope, item)` pairs in dispatch order. -/
def pollRun (repos : List String) (st : String → Option (Finset ℕ)) :
    List (String → Option (List ℕ)) →
      (String → Option (Finset ℕ)) × List (String × ℕ)
  | [] => (st, [])
  | f :: ts =>
      let s := pollTick repos f st
      let r := pollRun repos s.1 ts
      (r.1, s.2 ++ r.2)

/-- The backoff of the seed phase: `2^(attempt.min(5))` seconds. -/
def backoffSecs (attempt : Nat) : Nat := 2 ^ (min attempt 5)

/-- The retry loop of `GithubPrTrigger::seed` for one scope.  `fetch a` is
the outcome of attempt `a` (1-based); the result is the seeded PR-number set
(`none` when all `maxRetries` attempts failed) together with the list of
backoff sleeps performed, in order.  `fuel` bounds the recursion;
`seedScope` passes `maxRetries`. -/
def seedLoop (fetch : Nat → Option (List ℕ)) (maxRetries : Nat) :
    Nat → Nat → Option (Finset ℕ) × List Nat
  | 0, _ => (none, [])
  | fuel + 1, attempt0 =>
      let attempt := attempt0 + 1
      match fetch attempt with
      | some prs => (some prs.toFinset, [])
      | none =>
          if maxRetries ≤ attempt then (none, [])
          else
            let r := seedLoop fetch maxRetries fuel attempt
            (r.1, backoffSecs attempt :: r.2)

/-- The seed retry loop for one scope with the source's `max_retries = 10`. -/
def seedScope (fetch : Nat → Option (List ℕ)) : Option (Finset ℕ) × List Nat :=
  seedLoop fetch 10 10 0

/-- Function `GithubPrTrigger::seed`: seed every scope in order; a scope whose ten
attempts all fail is merely logged and left out of the SeenSet map.  The
function always returns `Except.ok` — seeding failure is never fatal. -/
def seed (repos : List String) (fetch : String → Nat → Option (List ℕ))
    (st0 : String → Option (Finset ℕ)) :
    Except String (String → Option (Finset ℕ)) :=
  .ok (repos.foldl
    (fun st r =>
      match (seedScope (fetch r)).1 with
      | some s => Function.update st r (some s)
      | none => st)
    st0)

/-- The seeded-repo filter at the top of `poll_loop` (lines 113–119): only
scopes present in the SeenSet map are polled. -/
def seededRepos (repos : List String) (st : String → Option (Finset ℕ)) :
    List String :=
  repos.filter (fun r => (st r).isSome)

/-- First-of-two option, used to state last-writer-wins lookups. -/
def optOr {α : Type} (a b : Option α) : Option α :=
  match a with
  | some v => some v
  | none => b

/-- The value of the *last* binding of `k` in `m` (the winner under
last-writer-wins). -/
def lastFind (m : Ctx) (k : String) : Option String :=
  (m.reverse.find? (fun kv => kv.1 = k)).map (fun kv => kv.2)

/-- Concatenation of the parents' item lists, in parent order. -/
def itemsCat (l : List NodeOutput) : List ContentItem :=
  (l.map NodeOutput.as_items).flatten

/-- The text payloads of the parents, in parent order. -/
def textsOf (l : List NodeOutput) : List String :=
  l.filterMap (fun o => match o with | .text t _ => some t | _ => none)

/-- The context mappings of the parents, in parent order. -/
def ctxsOf (l : List NodeOutput) : List Ctx :=
  l.filterMap (fun o => match o with | .context m => some m | _ => none)

/-- Does the list contain an `Items` output? -/
def hasItemsIn (l : List NodeOutput) : Bool :=
  l.any (fun o => match o with | .items _ => true | _ => false)

/-- Does the list contain a `Text` output? -/
def hasTextIn (l : List NodeOutput) : Bool :=
  l.any (fun o => match o with | .text _ _ => true | _ => false)

/-- Does the list contain a `Context` output? -/
def hasCtxIn (l : List NodeOutput) : Bool :=
  l.any (fun o => match o with | .context _ => true | _ => false)

/-- The seen set of a scope, reading an absent entry as empty
(`entry(..).or_default()`). -/
def seenD (st : String → Option (Finset ℕ)) (r : String) : Finset ℕ :=
  (st r).getD ∅

/-- Recursive description of the `new_prs` list computed by the critical
section: the fetched numbers that were not yet seen, first occurrences only,
in fetch order. -/
def newOf (seen : Finset ℕ) : List ℕ → List ℕ
  | [] => []
  | p :: ps => if p ∈ seen then newOf seen ps else p :: newOf (insert p seen) ps

/-- The items dispatched for scope `r` within a dispatch list. -/
def dsSet (ds : List (String × ℕ)) (r : String) : Finset ℕ :=
  (ds.filterMap (fun p => if p.1 = r then some p.2 else none)).toFinset

/-- Recursive form of `pollTick`, easier to induct on. -/
def pollTickRec (fetch : String → Option (List ℕ)) :
    List String → (String → Option (Finset ℕ)) →
      (String → Option (Finset ℕ)) × List (String × ℕ)
  | [], st => (st, [])
  | r :: rs, st =>
      let s := pollRepoStep fetch st r
      let t := pollTickRec fetch rs s.1
      (t.1, s.2 ++ t.2)

/-- The level computed for a node from the current `node_level` map: parents
without an entry are skipped by `filter_map`, `max` of the rest plus one,
or 0 when nothing is found. -/
def lvOf (nl : String → Option Nat) (ps : List String) : Nat :=
  match (ps.filterMap nl).max? with
  | some m => m + 1
  | none => 0

/-- One iteration of the assignment loop of `compute_levels`. -/
def stepAL (pa : String → List String) (st : (String → Option Nat) × Nat)
    (x : String) : (String → Option Nat) × Nat :=
  (Function.update st.1 x (some (lvOf st.1 (pa x))), max st.2 (lvOf st.1 (pa x)))

/-- The number of already-processed parent occurrences of `x`: how often the
Kahn loop has decremented `x`'s in-degree after having popped the nodes of
`srt`. -/
def decSo (nodes : List Node) (edges : List Edge) (srt : List String)
    (x : String) : Nat :=
  (parentsOf nodes edges x).countP (fun u => decide (u ∈ srt))

/-- The loop invariant of `topo_sort`'s Kahn loop. -/
structure KInv (nodes : List Node) (edges : List Edge) (ind : String → Nat)
    (queue srt : List String) : Prop where
  nodup : (srt ++ queue).Nodup
  sub : ∀ x ∈ srt ++ queue, x ∈ nodeIds nodes
  deg : ∀ x, ind x = indeg0 nodes edges x - decSo nodes edges srt x
  done : ∀ x ∈ nodeIds nodes,
    ((x ∈ srt ∨ x ∈ queue) ↔ decSo nodes edges srt x = indeg0 nodes edges x)
  ord : ∀ u x, x ∈ childrenOf nodes edges u → x ∈ srt →
    u ∈ srt ∧ srt.indexOf u < srt.indexOf x

/-! ## Theorems -/

theorem find?_congr_on (p q : String × String → Bool) (l : Ctx)
    (h : ∀ a ∈ l, p a = q a) : l.find? p = l.find? q := by
  induction l with
  | nil => rfl
  | cons a rest ih =>
      have ha := h a (by simp)
      by_cases hp : p a = true
      · rw [List.find?_cons_of_pos _ hp, List.find?_cons_of_pos _ (ha ▸ hp)]
      · have hp' : p a = false := Bool.eq_false_iff.mpr hp
        rw [List.find?_cons_of_neg _ (by simp [hp']),
          List.find?_cons_of_neg _ (by simp [ha ▸ hp'])]
        exact ih (fun a ha => h a (by simp [ha]))

theorem ctxInsert_preserves_keys (m : Ctx) (k v : String) (k' : String) :
    ctxFind (ctxInsert m k v) k' = if k' = k then some v else ctxFind m k' := by
  unfold ctxInsert ctxFind
  by_cases hany : m.any (fun kv => kv.1 = k) = true
  · simp only [hany, if_true]
    rw [List.find?_map]
    have hpred : ∀ kv : String × String, kv ∈ m →
        ((fun kv : String × String => decide (kv.1 = k')) ∘
          (fun kv : String × String => if kv.1 = k then (k, v) else kv)) kv =
        decide (kv.1 = k') := by
      intro kv _
      by_cases h : kv.1 = k
      · by_cases hk : k' = k <;> simp [h, Function.comp, hk, Ne.symm, eq_comm]
      · simp [h, Function.comp]
    rw [find?_congr_on _ _ _ hpred]
    by_cases hk : k' = k
    · subst hk
      simp only [if_pos rfl]
      rcases List.any_eq_true.mp hany with ⟨kv, hmem, hkv⟩
      have hsome : (m.find? (fun kv => decide (kv.1 = k'))).isSome := by
        rw [List.find?_isSome]
        exact ⟨kv, hmem, hkv⟩
      rcases Option.isSome_iff_exists.mp hsome with ⟨kv0, hkv0⟩
      have hkey : kv0.1 = k' := by
        have := List.find?_some hkv0
        simpa using this
      simp [hkv0, hkey]
    · simp only [if_neg hk]
      cases hfind : m.find? (fun kv => decide (kv.1 = k')) with
      | none => simp
      | some kv0 =>
          have hkey : kv0.1 = k' := by
            have := List.find?_some hfind
            simpa using this
          have hne : ¬ (kv0.1 = k) := by rw [hkey]; exact hk
          simp [hne]
  · have hany' : m.any (fun kv => kv.1 = k) = false := Bool.eq_false_iff.mpr hany
    simp only [hany', Bool.false_eq_true, if_false]
    rw [List.find?_append]
    by_cases hk : k' = k
    · subst hk
      have hnone : m.find? (fun kv => decide (kv.1 = k')) = none := by
        rw [List.find?_eq_none]
        intro kv hmem
        simp only [decide_eq_true_eq]
        intro hkv
        exact hany (List.any_eq_true.mpr ⟨kv, hmem, by simp [hkv]⟩)
      simp [hnone, if_pos rfl]
    · cases hfind : m.find? (fun kv => decide (kv.1 = k')) with
      | none => simp [hfind, Ne.symm hk, hk]
      | some kv0 => simp [hfind, hk]

theorem lastFind_cons (kv : String × String) (rest : Ctx) (k : String) :
    lastFind (kv :: rest) k =
      optOr (lastFind rest k) (if kv.1 = k then some kv.2 else none) := by
  unfold lastFind optOr
  simp only [List.reverse_cons, List.find?_append]
  cases hfind : rest.reverse.find? (fun kv => decide (kv.1 = k)) with
  | none => by_cases h : kv.1 = k <;> simp [hfind, h]
  | some kv0 => simp [hfind]

theorem ctxFind_ctxExtend (m1 m2 : Ctx) (k : String) :
    ctxFind (ctxExtend m1 m2) k = optOr (lastFind m2 k) (ctxFind m1 k) := by
  induction m2 generalizing m1 with
  | nil => simp [ctxExtend, lastFind, optOr]
  | cons kv rest ih =>
      have hstep : ctxExtend m1 (kv :: rest) = ctxExtend (ctxInsert m1 kv.1 kv.2) rest := rfl
      rw [hstep, ih, lastFind_cons, ctxInsert_preserves_keys]
      cases hlf : lastFind rest k with
      | some v => simp [optOr, hlf]
      | none =>
          by_cases h : kv.1 = k
          · simp [optOr, hlf, h, if_pos (Eq.symm h)]
          · have h2 : ¬ (k = kv.1) := fun hh => h hh.symm
            simp [optOr, hlf, h, h2]

theorem lastFind_append (m1 m2 : Ctx) (k : String) :
    lastFind (m1 ++ m2) k = optOr (lastFind m2 k) (lastFind m1 k) := by
  unfold lastFind optOr
  rw [List.reverse_append, List.find?_append]
  cases hfind : m2.reverse.find? (fun kv => decide (kv.1 = k)) with
  | none => simp [hfind]
  | some kv0 => simp [hfind]

theorem ctxFind_foldl_ctxExtend (maps : List Ctx) (m0 : Ctx) (k : String) :
    ctxFind (maps.foldl ctxExtend m0) k =
      optOr (lastFind maps.flatten k) (ctxFind m0 k) := by
  induction maps generalizing m0 with
  | nil => simp [lastFind, optOr]
  | cons m rest ih =>
      simp only [List.foldl_cons, List.flatten_cons]
      rw [ih, ctxFind_ctxExtend, lastFind_append]
      cases lastFind rest.flatten k <;> simp [optOr]

theorem foldl_mergeStep_spec (l : List NodeOutput) (st : NodeOutput.MergeAcc) :
    l.foldl NodeOutput.mergeStep st =
      ⟨st.items ++ itemsCat l, st.texts ++ textsOf l,
        (ctxsOf l).foldl ctxExtend st.context,
        st.hasItems || hasItemsIn l, st.hasText || hasTextIn l,
        st.hasContext || hasCtxIn l⟩ := by
  induction l generalizing st with
  | nil => simp [itemsCat, textsOf, ctxsOf, hasItemsIn, hasTextIn, hasCtxIn]
  | cons o rest ih =>
      cases o <;>
        simp [NodeOutput.mergeStep, ih, itemsCat, textsOf, ctxsOf,
          hasItemsIn, hasTextIn, hasCtxIn, NodeOutput.as_items,
          Bool.or_assoc, Bool.or_comm, Bool.or_left_comm]

theorem merge_no_failed_spec (outs : List NodeOutput) (hne : outs ≠ [])
    (hnf : ∀ o ∈ outs, o ≠ .failed) :
    NodeOutput.merge outs =
      (if hasItemsIn outs then .items (itemsCat outs)
       else if hasTextIn outs then
         .text (String.intercalate "\n" (textsOf outs)) none
       else if hasCtxIn outs then
         .context ((ctxsOf outs).foldl ctxExtend [])
       else .empty) := by
  unfold NodeOutput.merge
  have hempty : outs.isEmpty = false := by
    cases outs with
    | nil => exact absurd rfl hne
    | cons a l => rfl
  have hfail : outs.any NodeOutput.isFailed = false := by
    rw [Bool.eq_false_iff]
    intro h
    rcases List.any_eq_true.mp h with ⟨o, hmem, ho⟩
    cases o <;> simp [NodeOutput.isFailed] at ho
    exact hnf _ hmem rfl
  rw [hempty, hfail]
  simp only [Bool.false_eq_true, if_false]
  rw [foldl_mergeStep_spec]
  simp

/-- C5: for every list of `NodeOutput` values containing at least one
`Failed`, `merge` returns `Failed`, regardless of the other elements. -/
theorem claim_C5_merge_failed (outs : List NodeOutput)
    (h : NodeOutput.failed ∈ outs) : NodeOutput.merge outs = .failed := by
  unfold NodeOutput.merge
  have hempty : outs.isEmpty = false := by
    cases outs with
    | nil => cases h
    | cons a l => rfl
  have hfail : outs.any NodeOutput.isFailed = true :=
    List.any_eq_true.mpr ⟨.failed, h, rfl⟩
  rw [hempty, hfail]
  simp

/-- Witness for C5 at a concrete mixed input. -/
theorem claim_C5_merge_failed_witness :
    NodeOutput.merge [.items [], .failed, .empty] = .failed :=
  claim_C5_merge_failed [.items [], .failed, .empty] (by simp)

/-- C4: for a non-empty bag of outputs with no `Failed`, `merge` picks the
variant by the precedence `Items > Text > Context > Empty`; `Items`
concatenates parent item lists in parent order, `Text` joins the parents'
text payloads with a single newline and drops the `ExecutionResult`
metadata, and `Context` folds the parent mappings left-to-right with
last-writer-wins lookup; `merge []` is `Empty`. -/
theorem claim_C4_merge_precedence (outs : List NodeOutput) (hne : outs ≠ [])
    (hnf : ∀ o ∈ outs, o ≠ .failed) :
    ((hasItemsIn outs = true →
        NodeOutput.merge outs = .items (itemsCat outs)) ∧
      (hasItemsIn outs = false → hasTextIn outs = true →
        NodeOutput.merge outs =
          .text (String.intercalate "\n" (textsOf outs)) none) ∧
      (hasItemsIn outs = false → hasTextIn outs = false →
        hasCtxIn outs = true →
        ∃ m, NodeOutput.merge outs = .context m ∧
          ∀ k, ctxFind m k = lastFind (ctxsOf outs).flatten k) ∧
      (hasItemsIn outs = false → hasTextIn outs = false →
        hasCtxIn outs = false → NodeOutput.merge outs = .empty)) ∧
      NodeOutput.merge [] = .empty := by
  refine ⟨⟨?_, ?_, ?_, ?_⟩, rfl⟩
  · intro hi
    rw [merge_no_failed_spec outs hne hnf, hi]
    simp
  · intro hi ht
    rw [merge_no_failed_spec outs hne hnf, hi, ht]
    simp
  · intro hi ht hc
    rw [merge_no_failed_spec outs hne hnf, hi, ht, hc]
    refine ⟨(ctxsOf outs).foldl ctxExtend [], by simp, ?_⟩
    intro k
    rw [ctxFind_foldl_ctxExtend]
    have : ctxFind [] k = none := rfl
    rw [this]
    cases lastFind (ctxsOf outs).flatten k <;> simp [optOr]
  · intro hi ht hc
    rw [merge_no_failed_spec outs hne hnf, hi, ht, hc]
    simp

/-- Witness for C4: a `Text`+`Context` merge picks `Text` and joins the
payloads with a newline, and the empty merge is `Empty`. -/
theorem claim_C4_merge_precedence_witness :
    NodeOutput.merge
        [.text "p" none, .context [("a", "1")], .text "q" (some ⟨1, 2, 3⟩)] =
      .text "p\nq" none ∧
      NodeOutput.merge [] = .empty := by
  have h := claim_C4_merge_precedence
    [.text "p" none, .context [("a", "1")], .text "q" (some ⟨1, 2, 3⟩)]
    (by simp) (by simp)
  refine ⟨?_, h.2⟩
  have h2 := h.1.2.1 (by decide) (by decide)
  rw [h2]
  rfl

/-- C10: the projections are total and never signal an error: `as_text` is
the empty string on `Failed` and `Empty`; `as_items` is the empty list on
every non-`Items` variant; `as_context` is `none` on every non-`Context`
variant. -/
theorem claim_C10_projections_total (fmt : List ContentItem → String)
    (t : String) (r : Option ExecutionResult) (m : Ctx) (v : List ContentItem) :
    NodeOutput.as_text fmt .failed = "" ∧
      NodeOutput.as_text fmt .empty = "" ∧
      NodeOutput.as_items .failed = [] ∧
      NodeOutput.as_items .empty = [] ∧
      NodeOutput.as_items (.text t r) = [] ∧
      NodeOutput.as_items (.context m) = [] ∧
      NodeOutput.as_context .failed = none ∧
      NodeOutput.as_context .empty = none ∧
      NodeOutput.as_context (.items v) = none ∧
      NodeOutput.as_context (.text t r) = none :=
  ⟨rfl, rfl, rfl, rfl, rfl, rfl, rfl, rfl, rfl, rfl⟩

theorem processTick_go (prs : List ℕ) (s : Finset ℕ) (acc : List ℕ) :
    prs.foldl
        (fun st pr => if pr ∈ st.1 then st else (insert pr st.1, st.2 ++ [pr]))
        (s, acc) =
      (s ∪ prs.toFinset, acc ++ newOf s prs) := by
  induction prs generalizing s acc with
  | nil => simp [newOf]
  | cons p ps ih =>
      simp only [List.foldl_cons, newOf]
      by_cases hp : p ∈ s
      · rw [if_pos hp, if_pos hp, ih]
        have : s ∪ (p :: ps).toFinset = s ∪ ps.toFinset := by
          ext x
          simp only [Finset.mem_union, List.toFinset_cons, Finset.mem_insert]
          constructor
          · rintro (h | h | h)
            · exact Or.inl h
            · exact Or.inl (h ▸ hp)
            · exact Or.inr h
          · rintro (h | h)
            · exact Or.inl h
            · exact Or.inr (Or.inr h)
        rw [this]
      · rw [if_neg hp, if_neg hp, ih]
        rw [Prod.mk.injEq]
        constructor
        · ext x
          simp only [Finset.mem_union, Finset.mem_insert, List.toFinset_cons]
          tauto
        · simp

theorem processTick_spec (s : Finset ℕ) (prs : List ℕ) :
    processTick s prs = (s ∪ prs.toFinset, newOf s prs) := by
  unfold processTick
  rw [processTick_go]
  simp

theorem newOf_unseen (s : Finset ℕ) (prs : List ℕ) :
    ∀ n ∈ newOf s prs, n ∉ s ∧ n ∈ prs := by
  induction prs generalizing s with
  | nil => intro n h; cases h
  | cons p ps ih =>
      intro n h
      unfold newOf at h
      by_cases hp : p ∈ s
      · rw [if_pos hp] at h
        rcases ih s n h with ⟨h1, h2⟩
        exact ⟨h1, by simp [h2]⟩
      · rw [if_neg hp] at h
        rcases List.mem_cons.mp h with h | h
        · exact ⟨h ▸ hp, by simp [h]⟩
        · rcases ih (insert p s) n h with ⟨h1, h2⟩
          exact ⟨fun hn => h1 (Finset.mem_insert_of_mem hn), by simp [h2]⟩

theorem newOf_nodup (s : Finset ℕ) (prs : List ℕ) : (newOf s prs).Nodup := by
  induction prs generalizing s with
  | nil => simp [newOf]
  | cons p ps ih =>
      unfold newOf
      by_cases hp : p ∈ s
      · rw [if_pos hp]; exact ih s
      · rw [if_neg hp]
        refine List.nodup_cons.mpr ⟨?_, ih (insert p s)⟩
        intro hmem
        have := (newOf_unseen (insert p s) ps p hmem).1
        exact this (Finset.mem_insert_self p s)

theorem newOf_complete (s : Finset ℕ) (prs : List ℕ) :
    ∀ n ∈ prs, n ∉ s → n ∈ newOf s prs := by
  induction prs generalizing s with
  | nil => intro n h; cases h
  | cons p ps ih =>
      intro n hmem hns
      unfold newOf
      rcases List.mem_cons.mp hmem with h | h
      · subst h
        rw [if_neg hns]
        exact List.mem_cons_self _ _
      · by_cases hp : p ∈ s
        · rw [if_pos hp]; exact ih s n h hns
        · rw [if_neg hp]
          by_cases hnp : n = p
          · subst hnp; exact List.mem_cons_self _ _
          · exact List.mem_cons_of_mem _
              (ih (insert p s) n h (by simp [Finset.mem_insert, hnp, hns]))

theorem mem_dsSet (ds : List (String × ℕ)) (r : String) (n : ℕ) :
    n ∈ dsSet ds r ↔ (r, n) ∈ ds := by
  unfold dsSet
  rw [List.mem_toFinset, List.mem_filterMap]
  constructor
  · rintro ⟨p, hp, hif⟩
    by_cases h : p.1 = r
    · rw [if_pos h] at hif
      have : p = (r, n) := by
        cases p
        simp only [Option.some.injEq] at hif
        simp_all
      exact this ▸ hp
    · rw [if_neg h] at hif
      cases hif
  · intro h
    exact ⟨(r, n), h, by simp⟩

theorem dsSet_append (d1 d2 : List (String × ℕ)) (r : String) :
    dsSet (d1 ++ d2) r = dsSet d1 r ∪ dsSet d2 r := by
  unfold dsSet
  rw [List.filterMap_append, List.toFinset_append]

theorem newOf_union (s : Finset ℕ) (prs : List ℕ) :
    s ∪ prs.toFinset = s ∪ (newOf s prs).toFinset := by
  induction prs generalizing s with
  | nil => simp [newOf]
  | cons p ps ih =>
      unfold newOf
      by_cases hp : p ∈ s
      · rw [if_pos hp]
        have h1 : s ∪ (p :: ps).toFinset = s ∪ ps.toFinset := by
          ext x
          simp only [Finset.mem_union, List.toFinset_cons, Finset.mem_insert]
          constructor
          · rintro (h | h | h)
            · exact Or.inl h
            · exact Or.inl (h ▸ hp)
            · exact Or.inr h
          · rintro (h | h)
            · exact Or.inl h
            · exact Or.inr (Or.inr h)
        rw [h1, ih]
      · rw [if_neg hp]
        have h1 : s ∪ (p :: ps).toFinset = insert p s ∪ ps.toFinset := by
          ext x
          simp only [Finset.mem_union, List.toFinset_cons, Finset.mem_insert]
          tauto
        have h2 : s ∪ (p :: newOf (insert p s) ps).toFinset =
            insert p s ∪ (newOf (insert p s) ps).toFinset := by
          ext x
          simp only [Finset.mem_union, List.toFinset_cons, Finset.mem_insert]
          tauto
        rw [h1, h2, ih]

theorem pollTick_go_eq (fetch : String → Option (List ℕ)) (repos : List String)
    (st : String → Option (Finset ℕ)) (acc : List (String × ℕ)) :
    repos.foldl
        (fun acc r =>
          let s := pollRepoStep fetch acc.1 r
          (s.1, acc.2 ++ s.2))
        (st, acc) =
      ((pollTickRec fetch repos st).1, acc ++ (pollTickRec fetch repos st).2) := by
  induction repos generalizing st acc with
  | nil => simp [pollTickRec]
  | cons r rs ih =>
      simp only [List.foldl_cons, pollTickRec]
      rw [ih]
      simp

theorem pollTick_eq_rec (fetch : String → Option (List ℕ)) (repos : List String)
    (st : String → Option (Finset ℕ)) :
    pollTick repos fetch st = pollTickRec fetch repos st := by
  unfold pollTick
  rw [pollTick_go_eq]
  simp

theorem seenD_update (st : String → Option (Finset ℕ)) (r : String)
    (s : Finset ℕ) (x : String) :
    seenD (Function.update st r (some s)) x = if x = r then s else seenD st x := by
  unfold seenD
  by_cases h : x = r
  · subst h; simp
  · simp [Function.update, h]

theorem pollTickRec_spec (fetch : String → Option (List ℕ)) (repos : List String)
    (st : String → Option (Finset ℕ)) :
    (∀ r, seenD (pollTickRec fetch repos st).1 r =
        seenD st r ∪ dsSet (pollTickRec fetch repos st).2 r) ∧
      (pollTickRec fetch repos st).2.Nodup ∧
      (∀ p ∈ (pollTickRec fetch repos st).2, p.2 ∉ seenD st p.1) ∧
      (∀ r prs n, r ∈ repos → fetch r = some prs → n ∈ prs →
        n ∈ seenD (pollTickRec fetch repos st).1 r) := by
  induction repos generalizing st with
  | nil =>
      refine ⟨fun r => by simp [pollTickRec, dsSet], by simp [pollTickRec], ?_, ?_⟩
      · intro p hp; simp [pollTickRec] at hp
      · intro r prs n hr; cases hr
  | cons r0 rs ih =>
      cases hf : fetch r0 with
      | none =>
          have hstep : pollTickRec fetch (r0 :: rs) st = pollTickRec fetch rs st := by
            simp [pollTickRec, pollRepoStep, hf]
          rw [hstep]
          rcases ih st with ⟨i1, i2, i3, i4⟩
          refine ⟨i1, i2, i3, ?_⟩
          intro r prs n hr hfr hn
          rcases List.mem_cons.mp hr with h | h
          · subst h; rw [hf] at hfr; cases hfr
          · exact i4 r prs n h hfr hn
      | some prs0 =>
          have hstep : pollTickRec fetch (r0 :: rs) st =
              (let st1 := Function.update st r0
                (some (seenD st r0 ∪ prs0.toFinset))
               let t := pollTickRec fetch rs st1
               (t.1, (newOf (seenD st r0) prs0).map (fun n => (r0, n)) ++ t.2)) := by
            simp only [pollTickRec, pollRepoStep, hf, processTick_spec]
            rfl
          rw [hstep]
          simp only []
          set st1 := Function.update st r0 (some (seenD st r0 ∪ prs0.toFinset)) with hst1
          rcases ih st1 with ⟨i1, i2, i3, i4⟩
          set d0 := (newOf (seenD st r0) prs0).map (fun n => (r0, n)) with hd0
          have hd0r : ∀ p ∈ d0, p.1 = r0 ∧ p.2 ∈ newOf (seenD st r0) prs0 := by
            intro p hp
            rcases List.mem_map.mp hp with ⟨n, hn, hpn⟩
            exact hpn ▸ ⟨rfl, hn⟩
          have hseen1 : ∀ r, seenD st1 r =
              if r = r0 then seenD st r0 ∪ prs0.toFinset else seenD st r := by
            intro r; rw [hst1, seenD_update]
          have hds0 : ∀ r, dsSet d0 r =
              if r = r0 then (newOf (seenD st r0) prs0).toFinset else ∅ := by
            intro r
            by_cases h : r = r0
            · subst h
              ext n
              rw [mem_dsSet, hd0]
              simp [List.mem_map]
            · ext n
              rw [mem_dsSet, hd0, if_neg h]
              simp only [List.mem_map, Finset.not_mem_empty, iff_false]
              rintro ⟨m, hm, hmn⟩
              exact h (by cases hmn; rfl)
          have hd0mem : ∀ p ∈ d0, p.2 ∈ seenD st1 p.1 := by
            intro p hp
            rcases hd0r p hp with ⟨hp1, hp2⟩
            rw [hseen1 p.1, hp1, if_pos rfl]
            have := newOf_unseen (seenD st r0) prs0 p.2 hp2
            exact Finset.mem_union_right _ (List.mem_toFinset.mpr this.2)
          refine ⟨?_, ?_, ?_, ?_⟩
          · intro r
            rw [i1 r, dsSet_append, hseen1 r, hds0 r]
            by_cases h : r = r0
            · subst h
              rw [if_pos rfl, if_pos rfl, newOf_union (seenD st r) prs0,
                Finset.union_assoc]
            · rw [if_neg h, if_neg h]
              simp
          · rw [List.nodup_append]
            refine ⟨?_, i2, ?_⟩
            · rw [hd0]
              exact (newOf_nodup _ _).map
                (fun a b hab => by simpa using congrArg Prod.snd hab)
            · intro p hp0 hp1
              exact i3 p hp1 (hd0mem p hp0)
          · intro p hp
            rcases List.mem_append.mp hp with h | h
            · rcases hd0r p h with ⟨hp1, hp2⟩
              have := newOf_unseen (seenD st r0) prs0 p.2 hp2
              rw [hp1]
              exact this.1
            · intro hmem
              refine i3 p h ?_
              rw [hseen1 p.1]
              by_cases hr : p.1 = r0
              · rw [if_pos hr]
                exact Finset.mem_union_left _ (hr ▸ hmem)
              · rw [if_neg hr]
                exact hmem
          · intro r prs n hr hfr hn
            by_cases h : r = r0
            · subst h
              rw [hf] at hfr
              cases hfr
              rw [i1 r]
              refine Finset.mem_union_left _ ?_
              rw [hseen1 r, if_pos rfl]
              exact Finset.mem_union_right _ (List.mem_toFinset.mpr hn)
            · rcases List.mem_cons.mp hr with hcase | hcase
              · exact absurd hcase.symm (fun hh => h hh.symm)
              · exact i4 r prs n hcase hfr hn

theorem pollRun_spec (repos : List String)
    (ticks : List (String → Option (List ℕ))) (st : String → Option (Finset ℕ)) :
    (∀ r, seenD (pollRun repos st ticks).1 r =
        seenD st r ∪ dsSet (pollRun repos st ticks).2 r) ∧
      (pollRun repos st ticks).2.Nodup ∧
      (∀ p ∈ (pollRun repos st ticks).2, p.2 ∉ seenD st p.1) ∧
      (∀ (t : ℕ) (f : String → Option (List ℕ)) (prs : List ℕ) (r : String)
          (n : ℕ), ticks[t]? = some f → r ∈ repos → f r = some prs →
        n ∈ prs → n ∈ seenD (pollRun repos st ticks).1 r) := by
  induction ticks generalizing st with
  | nil =>
      refine ⟨fun r => by simp [pollRun, dsSet], by simp [pollRun], ?_, ?_⟩
      · intro p hp; simp [pollRun] at hp
      · intro t f prs r n ht; simp at ht
  | cons f0 ts ih =>
      have hstep : pollRun repos st (f0 :: ts) =
          ((pollRun repos (pollTickRec f0 repos st).1 ts).1,
            (pollTickRec f0 repos st).2 ++
              (pollRun repos (pollTickRec f0 repos st).1 ts).2) := by
        simp only [pollRun, pollTick_eq_rec]
      rw [hstep]
      rcases pollTickRec_spec f0 repos st with ⟨t1, t2, t3, t4⟩
      set st1 := (pollTickRec f0 repos st).1 with hst1
      set d0 := (pollTickRec f0 repos st).2 with hd0
      rcases ih st1 with ⟨i1, i2, i3, i4⟩
      set d1 := (pollRun repos st1 ts).2 with hd1
      have hmono0 : ∀ r, seenD st r ⊆ seenD st1 r := by
        intro r
        rw [t1 r]
        exact Finset.subset_union_left
      have hmono1 : ∀ r, seenD st1 r ⊆ seenD (pollRun repos st1 ts).1 r := by
        intro r
        rw [i1 r]
        exact Finset.subset_union_left
      have hd0seen : ∀ p ∈ d0, p.2 ∈ seenD st1 p.1 := by
        intro p hp
        rw [t1 p.1]
        exact Finset.mem_union_right _ ((mem_dsSet _ _ _).mpr (by cases p; exact hp))
      refine ⟨?_, ?_, ?_, ?_⟩
      · intro r
        rw [i1 r, t1 r, dsSet_append, Finset.union_assoc]
      · rw [List.nodup_append]
        refine ⟨t2, i2, ?_⟩
        intro p hp0 hp1
        exact i3 p hp1 (hd0seen p hp0)
      · intro p hp
        rcases List.mem_append.mp hp with h | h
        · exact t3 p h
        · intro hmem
          exact i3 p h (hmono0 p.1 hmem)
      · intro t f prs r n ht hr hfr hn
        cases t with
        | zero =>
            simp only [List.getElem?_cons_zero, Option.some.injEq] at ht
            subst ht
            exact hmono1 r (t4 r prs n hr hfr hn)
        | succ t' =>
            simp only [List.getElem?_cons_succ] at ht
            exact i4 t' f prs r n ht hr hfr hn

/-- C1: over the whole lifetime of the polling loop each `(scope, item)`
pair is dispatched at most once (the dispatch trace has no duplicate), a
dispatched item was not in the initial SeenSet, and after any prefix of the
tick trace every item dispatched so far is already a member of the SeenSet
produced by its critical section (`processTick` models the whole
lock-protected region, so the set difference and the insertion are one
atomic step and every dispatch happens after the insertion). -/
theorem claim_C1_dispatch_at_most_once (repos : List String)
    (st0 : String → Option (Finset ℕ)) (ticks : List (String → Option (List ℕ))) :
    (pollRun repos st0 ticks).2.Nodup ∧
      (∀ p ∈ (pollRun repos st0 ticks).2, p.2 ∉ seenD st0 p.1) ∧
      (∀ t, ∀ p ∈ (pollRun repos st0 (ticks.take t)).2,
        p.2 ∈ seenD (pollRun repos st0 (ticks.take t)).1 p.1) := by
  refine ⟨(pollRun_spec repos ticks st0).2.1,
    (pollRun_spec repos ticks st0).2.2.1, ?_⟩
  intro t p hp
  rcases pollRun_spec repos (ticks.take t) st0 with ⟨h1, _, _, _⟩
  rw [h1 p.1]
  exact Finset.mem_union_right _ ((mem_dsSet _ _ _).mpr (by cases p; exact hp))

/-- Witness for C1: after seeding scope `r` with `{1,2,3}` and one tick
fetching `[1,2,3,4,5]`, the dispatch trace is duplicate-free, item `4` was
not initially seen, and every dispatched item is in the final SeenSet. -/
theorem claim_C1_dispatch_at_most_once_witness :
    (pollRun ["r"] (Function.update (fun _ => none) "r" (some ({1, 2, 3} : Finset ℕ)))
        [fun _ => some [1, 2, 3, 4, 5]]).2.Nodup ∧
      (4 : ℕ) ∉ seenD (Function.update (fun _ => none) "r" (some ({1, 2, 3} : Finset ℕ))) "r" ∧
      (4 : ℕ) ∈ seenD (pollRun ["r"]
        (Function.update (fun _ => none) "r" (some ({1, 2, 3} : Finset ℕ)))
        (([fun _ => some [1, 2, 3, 4, 5]] :
          List (String → Option (List ℕ))).take 1)).1 "r" := by
  have h := claim_C1_dispatch_at_most_once ["r"]
    (Function.update (fun _ => none) "r" (some ({1, 2, 3} : Finset ℕ)))
    [fun _ => some [1, 2, 3, 4, 5]]
  refine ⟨h.1, ?_, ?_⟩
  · exact h.2.1 ("r", 4) (by decide)
  · exact h.2.2 1 ("r", 4) (by decide)

/-- C2, counterexample to the claim as stated: with scope `r` seeded with
`{1}`, the fetch at tick 1 returns `[]` (item 1 absent) and the successful
fetch at tick 2 returns `[1]`, yet item 1 is dispatched zero times — not
exactly once — because it is already in the SeenSet from the seed.  Items
that reappear are never re-dispatched. -/
theorem claim_C2_counterexample :
    ((fun _ => some ([] : List ℕ)) : String → Option (List ℕ)) "r" = some [] ∧
      (1 : ℕ) ∉ ([] : List ℕ) ∧
      ((fun _ => some ([1] : List ℕ)) : String → Option (List ℕ)) "r" = some [1] ∧
      (1 : ℕ) ∈ ([1] : List ℕ) ∧
      List.count ("r", 1)
        (pollRun ["r"] (Function.update (fun _ => none) "r" (some ({1} : Finset ℕ)))
          [fun _ => some [], fun _ => some [1]]).2 = 0 := by
  refine ⟨rfl, by decide, rfl, by decide, ?_⟩
  decide

theorem beq_pair_eq (x y : String × ℕ) :
    (x == y) = (@BEq.beq _ instBEqOfDecidableEq x y) := by
  cases x with
  | mk a b =>
      cases y with
      | mk c d =>
          show (a == c && b == d) = decide ((a, b) = (c, d))
          rw [beq_eq_decide, beq_eq_decide]
          by_cases h1 : a = c
          · by_cases h2 : b = d
            · simp [h1, h2]
            · simp [h1, h2]
          · simp [h1]

theorem count_pair_agree (p : String × ℕ) (l : List (String × ℕ)) :
    l.count p = @List.count _ instBEqOfDecidableEq p l := by
  induction l with
  | nil => rfl
  | cons a l ih =>
      rw [List.count_cons, @List.count_cons _ instBEqOfDecidableEq, ih, beq_pair_eq]

/-- C2 as amended: an item fetched successfully at some tick is dispatched
exactly once over the loop lifetime **provided it is not already in the
scope's SeenSet** (it is neither in the seed set nor returned by an earlier
fetch); in particular, after a seed of `{1,2,3}`, a tick returning
`{1,2,3,4,5}` dispatches exactly the two runs for items 4 and 5. -/
theorem claim_C2_new_item_dispatched_once (repos : List String)
    (st0 : String → Option (Finset ℕ)) (ticks : List (String → Option (List ℕ)))
    (r : String) (n : ℕ) (t : ℕ) (f : String → Option (List ℕ)) (prs : List ℕ)
    (hr : r ∈ repos) (hn0 : n ∉ seenD st0 r) (ht : ticks[t]? = some f)
    (hf : f r = some prs) (hn : n ∈ prs) :
    List.count (r, n) (pollRun repos st0 ticks).2 = 1 := by
  rcases pollRun_spec repos ticks st0 with ⟨h1, h2, _, h4⟩
  have hseen : n ∈ seenD (pollRun repos st0 ticks).1 r := h4 t f prs r n ht hr hf hn
  rw [h1 r] at hseen
  have hmem : (r, n) ∈ (pollRun repos st0 ticks).2 := by
    rcases Finset.mem_union.mp hseen with h | h
    · exact absurd h hn0
    · exact (mem_dsSet _ _ _).mp h
  rw [count_pair_agree]
  exact List.count_eq_one_of_mem h2 hmem

/-- Witness for the amended C2, realising the spec's concrete scenario:
seed `{1,2,3}`, one tick fetching `[1,2,3,4,5]` — items 4 and 5 are each
dispatched exactly once, and the whole dispatch trace is exactly those two
runs. -/
theorem claim_C2_new_item_dispatched_once_witness :
    List.count ("r", 4)
        (pollRun ["r"] (Function.update (fun _ => none) "r" (some ({1, 2, 3} : Finset ℕ)))
          [fun _ => some [1, 2, 3, 4, 5]]).2 = 1 ∧
      List.count ("r", 5)
        (pollRun ["r"] (Function.update (fun _ => none) "r" (some ({1, 2, 3} : Finset ℕ)))
          [fun _ => some [1, 2, 3, 4, 5]]).2 = 1 ∧
      (pollRun ["r"] (Function.update (fun _ => none) "r" (some ({1, 2, 3} : Finset ℕ)))
          [fun _ => some [1, 2, 3, 4, 5]]).2 = [("r", 4), ("r", 5)] := by
  refine ⟨?_, ?_, by decide⟩
  · exact claim_C2_new_item_dispatched_once ["r"]
      (Function.update (fun _ => none) "r" (some ({1, 2, 3} : Finset ℕ)))
      [fun _ => some [1, 2, 3, 4, 5]] "r" 4 0 (fun _ => some [1, 2, 3, 4, 5])
      [1, 2, 3, 4, 5] (by decide) (by decide) rfl rfl (by decide)
  · exact claim_C2_new_item_dispatched_once ["r"]
      (Function.update (fun _ => none) "r" (some ({1, 2, 3} : Finset ℕ)))
      [fun _ => some [1, 2, 3, 4, 5]] "r" 5 0 (fun _ => some [1, 2, 3, 4, 5])
      [1, 2, 3, 4, 5] (by decide) (by decide) rfl rfl (by decide)

theorem seedLoop_success (fetch : Nat → Option (List ℕ)) :
    ∀ (fuel a k : Nat) (l : List ℕ), a < k → k ≤ 10 → k ≤ a + fuel →
      fetch k = some l → (∀ j, a < j → j < k → fetch j = none) →
      seedLoop fetch 10 fuel a =
        (some l.toFinset,
          (List.range (k - a - 1)).map (fun i => backoffSecs (a + 1 + i))) := by
  intro fuel
  induction fuel with
  | zero => intro a k l h1 _ h3; omega
  | succ fuel ih =>
      intro a k l h1 h2 h3 hk hfail
      by_cases heq : a + 1 = k
      · unfold seedLoop
        rw [heq]
        simp only [hk]
        have : k - a - 1 = 0 := by omega
        rw [this]
        rfl
      · have hlt : a + 1 < k := by omega
        have hnone : fetch (a + 1) = none := hfail (a + 1) (by omega) hlt
        unfold seedLoop
        simp only [hnone]
        have hnotmax : ¬ (10 ≤ a + 1) := by omega
        rw [if_neg hnotmax]
        rw [ih (a + 1) k l hlt h2 (by omega) hk
          (fun j hj1 hj2 => hfail j (by omega) hj2)]
        have hrange : k - a - 1 = (k - (a + 1) - 1) + 1 := by omega
        rw [hrange, List.range_succ_eq_map, List.map_cons, List.map_map]
        have harith : (fun i => backoffSecs (a + 1 + i)) ∘ Nat.succ =
            fun i => backoffSecs (a + 1 + 1 + i) := by
          funext i
          simp only [Function.comp]
          congr 1
          omega
        rw [harith]

theorem seedLoop_exhausted (fetch : Nat → Option (List ℕ)) :
    ∀ (fuel a : Nat), a < 10 → 10 ≤ a + fuel →
      (∀ j, a < j → j ≤ 10 → fetch j = none) →
      seedLoop fetch 10 fuel a =
        (none, (List.range (9 - a)).map (fun i => backoffSecs (a + 1 + i))) := by
  intro fuel
  induction fuel with
  | zero => intro a h1 h2; omega
  | succ fuel ih =>
      intro a h1 h2 hfail
      have hnone : fetch (a + 1) = none := hfail (a + 1) (by omega) (by omega)
      unfold seedLoop
      simp only [hnone]
      by_cases hmax : 10 ≤ a + 1
      · rw [if_pos hmax]
        have : 9 - a = 0 := by omega
        rw [this]
        rfl
      · rw [if_neg hmax]
        rw [ih (a + 1) (by omega) (by omega)
          (fun j hj1 hj2 => hfail j (by omega) hj2)]
        have hrange : 9 - a = (9 - (a + 1)) + 1 := by omega
        rw [hrange, List.range_succ_eq_map, List.map_cons, List.map_map]
        have harith : (fun i => backoffSecs (a + 1 + i)) ∘ Nat.succ =
            fun i => backoffSecs (a + 1 + 1 + i) := by
          funext i
          simp only [Function.comp]
          congr 1
          omega
        rw [harith]

theorem seedFold_spec (fetch : String → Nat → Option (List ℕ))
    (repos : List String) (st : String → Option (Finset ℕ)) (r : String) :
    (repos.foldl
        (fun st r =>
          match (seedScope (fetch r)).1 with
          | some s => Function.update st r (some s)
          | none => st)
        st) r =
      (if r ∈ repos then
        (match (seedScope (fetch r)).1 with
         | some s => some s
         | none => st r)
      else st r) := by
  induction repos generalizing st with
  | nil => simp
  | cons x rs ih =>
      simp only [List.foldl_cons]
      rw [ih]
      by_cases hrs : r ∈ rs
      · rw [if_pos hrs, if_pos (List.mem_cons_of_mem x hrs)]
        cases hsc : (seedScope (fetch r)).1 with
        | some s => rfl
        | none =>
            by_cases hx : x = r
            · subst hx
              rw [hsc]
            · cases (seedScope (fetch x)).1 with
              | some s => simp [Function.update, hx, Ne.symm hx]
              | none => rfl
      · rw [if_neg hrs]
        by_cases hx : r = x
        · subst hx
          rw [if_pos (List.mem_cons_self r rs)]
          cases hsc : (seedScope (fetch r)).1 with
          | some s => simp
          | none => rfl
        · rw [if_neg (by simp [hx, hrs])]
          cases (seedScope (fetch x)).1 with
          | some s => simp [Function.update, hx]
          | none => rfl

/-- C9: the seed phase retries each scope's fetch with exponential backoff
`2^min(attempt,5)` seconds for up to 10 attempts.  On the first success (at
attempt `k ≤ 10`) the full fetched item set is inserted for that scope and
the sleeps performed are exactly the capped powers of two for the failed
attempts.  If all ten attempts fail, the scope is left out of the SeenSet
map (hence excluded by `seededRepos` from all subsequent polling, when it
was not already seeded) after nine capped backoff sleeps; `seed` still
returns `Except.ok` for the remaining scopes — seeding failure is never
fatal. -/
theorem claim_C9_seed_backoff_and_exclusion
    (repos : List String) (fetch : String → Nat → Option (List ℕ))
    (st0 : String → Option (Finset ℕ)) (r : String) (k : Nat) (l : List ℕ) :
    (∀ a, backoffSecs a = 2 ^ min a 5 ∧ backoffSecs a ≤ 2 ^ 5) ∧
      (∃ m, seed repos fetch st0 = Except.ok m ∧
        (1 ≤ k → k ≤ 10 → fetch r k = some l →
          (∀ j, 1 ≤ j → j < k → fetch r j = none) →
          seedScope (fetch r) =
            (some l.toFinset,
              (List.range (k - 1)).map (fun i => backoffSecs (i + 1))) ∧
            (r ∈ repos → m r = some l.toFinset)) ∧
        ((∀ j, 1 ≤ j → j ≤ 10 → fetch r j = none) →
          (seedScope (fetch r)).1 = none ∧
            (seedScope (fetch r)).2 = [2, 4, 8, 16, 32, 32, 32, 32, 32] ∧
            m r = st0 r ∧
            (st0 r = none → r ∉ seededRepos repos m))) := by
  refine ⟨fun a => ⟨rfl, Nat.pow_le_pow_right (by omega) (min_le_right a 5)⟩, ?_⟩
  refine ⟨_, rfl, ?_, ?_⟩
  · intro h1 h2 hk hfail
    have hsucc := seedLoop_success (fetch r) 10 0 k l (by omega) h2 (by omega) hk
      (fun j hj1 hj2 => hfail j (by omega) hj2)
    have hsleeps : (List.range (k - 0 - 1)).map (fun i => backoffSecs (0 + 1 + i)) =
        (List.range (k - 1)).map (fun i => backoffSecs (i + 1)) := by
      have : k - 0 - 1 = k - 1 := by omega
      rw [this]
      apply List.map_congr_left
      intro i _
      congr 1
      omega
    constructor
    · unfold seedScope
      rw [hsucc, hsleeps]
    · intro hr
      rw [seedFold_spec fetch repos st0 r, if_pos hr]
      unfold seedScope
      rw [hsucc]
  · intro hfail
    have hex := seedLoop_exhausted (fetch r) 10 0 (by omega) (by omega)
      (fun j hj1 hj2 => hfail j (by omega) hj2)
    have hnone : (seedScope (fetch r)).1 = none := by
      unfold seedScope
      rw [hex]
    have hm : (repos.foldl
        (fun st r =>
          match (seedScope (fetch r)).1 with
          | some s => Function.update st r (some s)
          | none => st)
        st0) r = st0 r := by
      rw [seedFold_spec fetch repos st0 r]
      by_cases hr : r ∈ repos
      · rw [if_pos hr, hnone]
      · rw [if_neg hr]
    refine ⟨hnone, ?_, hm, ?_⟩
    · unfold seedScope
      rw [hex]
      rfl
    · intro hst0
      unfold seededRepos
      intro hmem
      have := List.of_mem_filter hmem
      rw [hm, hst0] at this
      cases this

/-- Witness for C9: scope `"r"` succeeds at attempt 3 (two backoff sleeps of
2 and 4 seconds, full set `{1,2}` seeded); scope `"s"` fails all ten
attempts (nine capped sleeps) and is excluded from polling; `seed` returns
`ok`. -/
theorem claim_C9_seed_backoff_and_exclusion_witness :
    (∃ m, seed ["r", "s"]
        (fun r a =>
          if r = "r" then (if 3 ≤ a then some [1, 2] else none) else none)
        (fun _ => none) = Except.ok m ∧
        m "r" = some ({1, 2} : Finset ℕ).val.toFinset) ∧
      seedScope (fun a => if 3 ≤ a then some ([1, 2] : List ℕ) else none) =
        (some ({1, 2} : Finset ℕ), [2, 4]) ∧
      (seedScope (fun _ => (none : Option (List ℕ)))).2 =
        [2, 4, 8, 16, 32, 32, 32, 32, 32] ∧
      "s" ∉ seededRepos ["r", "s"]
        (seed ["r", "s"]
          (fun r a =>
            if r = "r" then (if 3 ≤ a then some [1, 2] else none) else none)
          (fun _ => none)).toOption.iget := by
  refine ⟨?_, ?_, ?_, ?_⟩
  · rcases (claim_C9_seed_backoff_and_exclusion ["r", "s"]
      (fun r a => if r = "r" then (if 3 ≤ a then some [1, 2] else none) else none)
      (fun _ => none) "r" 3 [1, 2]).2 with ⟨m, hok, hsucc, _⟩
    refine ⟨m, hok, ?_⟩
    have := (hsucc (by omega) (by omega) (by decide)
      (fun j hj1 hj2 => by interval_cases j <;> decide)).2 (by decide)
    rw [this]
    decide
  · rcases (claim_C9_seed_backoff_and_exclusion ["r", "s"]
      (fun r a => if r = "r" then (if 3 ≤ a then some [1, 2] else none) else none)
      (fun _ => none) "r" 3 [1, 2]).2 with ⟨m, _, hsucc, _⟩
    have h := (hsucc (by omega) (by omega) (by decide)
      (fun j hj1 hj2 => by interval_cases j <;> decide)).1
    have hfr : (fun a => if 3 ≤ a then some ([1, 2] : List ℕ) else none) =
        (fun r a => if r = "r" then (if 3 ≤ a then some [1, 2] else none) else none) "r" := by
      funext a
      simp
    rw [hfr, h]
    decide
  · rcases (claim_C9_seed_backoff_and_exclusion ["r", "s"]
      (fun r a => if r = "r" then (if 3 ≤ a then some [1, 2] else none) else none)
      (fun _ => none) "s" 3 [1, 2]).2 with ⟨m, _, _, hex⟩
    have h := hex (fun j hj1 hj2 => rfl)
    have hfs : (fun _ => (none : Option (List ℕ))) =
        (fun r a => if r = "r" then (if 3 ≤ a then some [1, 2] else none) else none) "s" := by
      funext a
      simp
    rw [hfs]
    exact h.2.1
  · rcases (claim_C9_seed_backoff_and_exclusion ["r", "s"]
      (fun r a => if r = "r" then (if 3 ≤ a then some [1, 2] else none) else none)
      (fun _ => none) "s" 3 [1, 2]).2 with ⟨m, hok, _, hex⟩
    have h := hex (fun j hj1 hj2 => rfl)
    have : (seed ["r", "s"]
        (fun r a =>
          if r = "r" then (if 3 ≤ a then some [1, 2] else none) else none)
        (fun _ => none)).toOption.iget = m := by
      rw [hok]
      rfl
    rw [this]
    exact h.2.2.2 rfl

theorem count_childrenOf (nodes : List Node) (edges : List Edge) (u v : String) :
    List.count v (childrenOf nodes edges u) =
      (edges.filter (fun e =>
        retainedEdge nodes e && e.source == u && e.target == v)).length := by
  unfold childrenOf
  have hc : List.count v
      ((edges.filter (fun e => retainedEdge nodes e && e.source == u)).map
        (fun e => e.target)) =
      List.countP (fun x => x == v)
        ((edges.filter (fun e => retainedEdge nodes e && e.source == u)).map
          (fun e => e.target)) := rfl
  rw [hc, List.countP_map, List.countP_eq_length_filter, List.filter_filter]
  congr 1
  apply List.filter_congr
  intro e _
  simp [Function.comp, Bool.and_comm, Bool.and_left_comm, Bool.and_assoc]

theorem count_parentsOf (nodes : List Node) (edges : List Edge) (u v : String) :
    List.count u (parentsOf nodes edges v) =
      (edges.filter (fun e =>
        retainedEdge nodes e && e.source == u && e.target == v)).length := by
  unfold parentsOf
  have hc : List.count u
      ((edges.filter (fun e => retainedEdge nodes e && e.target == v)).map
        (fun e => e.source)) =
      List.countP (fun x => x == u)
        ((edges.filter (fun e => retainedEdge nodes e && e.target == v)).map
          (fun e => e.source)) := rfl
  rw [hc, List.countP_map, List.countP_eq_length_filter, List.filter_filter]
  congr 1
  apply List.filter_congr
  intro e _
  simp [Function.comp, Bool.and_comm, Bool.and_left_comm, Bool.and_assoc]

/-- C8, counterexample to the claim as stated: two edges between the same
present pair `a → b` are NOT collapsed by `build_adjacency` — the child `b`
appears twice in `a`'s children list and the parent `a` twice in `b`'s
parents list. -/
theorem claim_C8_counterexample :
    (build_adjacency
        [⟨"a", .source, "t", "a"⟩, ⟨"b", .source, "t", "b"⟩]
        [⟨"e1", "a", "b"⟩, ⟨"e2", "a", "b"⟩]).1 "a" = ["b", "b"] ∧
      List.count "b"
        ((build_adjacency
          [⟨"a", .source, "t", "a"⟩, ⟨"b", .source, "t", "b"⟩]
          [⟨"e1", "a", "b"⟩, ⟨"e2", "a", "b"⟩]).1 "a") = 2 ∧
      (build_adjacency
        [⟨"a", .source, "t", "a"⟩, ⟨"b", .source, "t", "b"⟩]
        [⟨"e1", "a", "b"⟩, ⟨"e2", "a", "b"⟩]).2 "b" = ["a", "a"] := by
  refine ⟨rfl, rfl, rfl⟩

/-- C8 as amended: `build_adjacency` keeps one occurrence per retained edge
(no collapsing): for every ordered pair `(u, v)`, `v` occurs in `u`'s
children list, and `u` in `v`'s parents list, exactly as many times as there
are retained edges from `u` to `v`. -/
theorem claim_C8_adjacency_multiplicity (nodes : List Node) (edges : List Edge)
    (u v : String) :
    List.count v ((build_adjacency nodes edges).1 u) =
      (edges.filter (fun e =>
        retainedEdge nodes e && e.source == u && e.target == v)).length ∧
      List.count u ((build_adjacency nodes edges).2 v) =
        (edges.filter (fun e =>
          retainedEdge nodes e && e.source == u && e.target == v)).length :=
  ⟨count_childrenOf nodes edges u v, count_parentsOf nodes edges u v⟩

theorem assignLevels_eq_foldl (pa : String → List String) (sorted : List String) :
    assignLevels pa sorted = sorted.foldl (stepAL pa) (fun _ => none, 0) := rfl

theorem foldAL_stable (pa : String → List String) :
    ∀ (zs : List String) (st : (String → Option Nat) × Nat) (z : String),
      z ∉ zs → (zs.foldl (stepAL pa) st).1 z = st.1 z := by
  intro zs
  induction zs with
  | nil => intro st z _; rfl
  | cons x xs ih =>
      intro st z hz
      have hzx : z ≠ x := fun h => hz (by rw [h]; exact List.mem_cons_self x xs)
      have hzxs : z ∉ xs := fun h => hz (List.mem_cons_of_mem x h)
      rw [List.foldl_cons, ih (stepAL pa st x) z hzxs]
      exact Function.update_noteq hzx _ _

theorem foldAL_isSome (pa : String → List String) :
    ∀ (zs : List String) (st : (String → Option Nat) × Nat) (z : String),
      ((zs.foldl (stepAL pa) st).1 z).isSome = true ↔
        (st.1 z).isSome = true ∨ z ∈ zs := by
  intro zs
  induction zs with
  | nil => intro st z; simp
  | cons x xs ih =>
      intro st z
      rw [List.foldl_cons, ih (stepAL pa st x) z]
      by_cases hz : z = x
      · subst hz
        have h1 : ((stepAL pa st z).1 z).isSome = true := by
          have := Function.update_same z (some (lvOf st.1 (pa z))) st.1
          show (Function.update st.1 z (some (lvOf st.1 (pa z))) z).isSome = true
          rw [this]
          rfl
        simp [h1]
      · have h1 : (stepAL pa st x).1 z = st.1 z := Function.update_noteq hz _ _
        rw [h1]
        simp [hz]

theorem foldAL_bound (pa : String → List String) :
    ∀ (zs : List String) (st : (String → Option Nat) × Nat),
      (∀ y w, st.1 y = some w → w ≤ st.2) →
      ∀ y w, ((zs.foldl (stepAL pa) st).1 y = some w) →
        w ≤ (zs.foldl (stepAL pa) st).2 := by
  intro zs
  induction zs with
  | nil => intro st hst y w h; exact hst y w h
  | cons x xs ih =>
      intro st hst y w
      rw [List.foldl_cons]
      apply ih
      intro y2 w2 h
      by_cases hy : y2 = x
      · subst hy
        have h2 : (stepAL pa st y2).1 y2 = some (lvOf st.1 (pa y2)) :=
          Function.update_same _ _ _
        rw [h2] at h
        cases h
        exact le_max_right st.2 _
      · have h2 : (stepAL pa st x).1 y2 = st.1 y2 := Function.update_noteq hy _ _
        rw [h2] at h
        exact le_trans (hst y2 w2 h) (le_max_left _ _)

theorem indexOf_middle (x : String) (ys zs : List String) (hx : x ∉ ys) :
    (ys ++ x :: zs).indexOf x = ys.length := by
  rw [List.indexOf_append_of_not_mem hx, List.indexOf_cons_self]
  omega

theorem mem_left_of_indexOf_lt (p : String) (ys rest : List String)
    (h : (ys ++ rest).indexOf p < ys.length) : p ∈ ys := by
  by_contra hp
  rw [List.indexOf_append_of_not_mem hp] at h
  omega

theorem assignLevels_fixpoint (pa : String → List String) (sorted : List String)
    (hval : ValidTopo sorted pa) :
    ∀ x ∈ sorted, (assignLevels pa sorted).1 x =
      some (lvOf (assignLevels pa sorted).1 (pa x)) := by
  intro x hx
  rcases hval with ⟨hnd, hpar⟩
  rcases List.mem_iff_append.mp hx with ⟨ys, zs, hdec⟩
  subst hdec
  have hxys : x ∉ ys := by
    intro h
    rcases List.nodup_append.mp hnd with ⟨_, _, hdisj⟩
    exact hdisj h (List.mem_cons_self x zs)
  have hxzs : x ∉ zs := by
    have := List.nodup_append.mp hnd
    exact (List.nodup_cons.mp this.2.1).1
  rw [assignLevels_eq_foldl, List.foldl_append, List.foldl_cons]
  set st0 : (String → Option Nat) × Nat := (fun _ => none, 0) with hst0
  set stys := ys.foldl (stepAL pa) st0 with hstys
  have hfinalx : (zs.foldl (stepAL pa) (stepAL pa stys x)).1 x =
      some (lvOf stys.1 (pa x)) := by
    rw [foldAL_stable pa zs _ x hxzs]
    exact Function.update_same _ _ _
  rw [hfinalx]
  congr 1
  unfold lvOf
  have hcong : (pa x).filterMap (zs.foldl (stepAL pa) (stepAL pa stys x)).1 =
      (pa x).filterMap stys.1 := by
    apply List.filterMap_congr
    intro p hp
    rcases hpar x hx p hp with ⟨hpmem, hplt⟩
    have hidx : (ys ++ x :: zs).indexOf x = ys.length := indexOf_middle x ys zs hxys
    rw [hidx] at hplt
    have hpys : p ∈ ys := mem_left_of_indexOf_lt p ys (x :: zs) hplt
    have hpx : p ≠ x := fun h => hxys (h ▸ hpys)
    have hpzs : p ∉ zs := by
      intro h
      rcases List.nodup_append.mp hnd with ⟨_, _, hdisj⟩
      exact hdisj hpys (List.mem_cons_of_mem x h)
    rw [foldAL_stable pa zs _ p hpzs]
    exact Function.update_noteq hpx _ _
  rw [hcong]

theorem assignLevels_snoc (pa : String → List String) (ys : List String) (x : String) :
    assignLevels pa (ys ++ [x]) = stepAL pa (assignLevels pa ys) x := by
  rw [assignLevels_eq_foldl, assignLevels_eq_foldl, List.foldl_append]
  rfl

theorem assignLevels_max_eq (pa : String → List String) (sorted : List String)
    (hnd : sorted.Nodup) :
    (assignLevels pa sorted).2 =
      (sorted.map (fun x => ((assignLevels pa sorted).1 x).getD 0)).foldl max 0 := by
  induction sorted using List.reverseRecOn with
  | nil => rfl
  | append_singleton ys x ih =>
      have hnys : ys.Nodup := (List.nodup_append.mp hnd).1
      have hxys : x ∉ ys := by
        intro h
        rcases List.nodup_append.mp hnd with ⟨_, _, hdisj⟩
        exact hdisj h (List.mem_singleton.mpr rfl)
      rw [assignLevels_snoc]
      have hvals : (ys ++ [x]).map
          (fun y => ((stepAL pa (assignLevels pa ys) x).1 y).getD 0) =
          (ys.map (fun y => ((assignLevels pa ys).1 y).getD 0)) ++
            [lvOf (assignLevels pa ys).1 (pa x)] := by
        rw [List.map_append]
        congr 1
        · apply List.map_congr_left
          intro y hy
          have hyx : y ≠ x := fun h => hxys (h ▸ hy)
          have : (stepAL pa (assignLevels pa ys) x).1 y =
              (assignLevels pa ys).1 y := Function.update_noteq hyx _ _
          rw [this]
        · have : (stepAL pa (assignLevels pa ys) x).1 x =
              some (lvOf (assignLevels pa ys).1 (pa x)) :=
            Function.update_same _ _ _
          simp [this]
      rw [hvals, List.foldl_append, List.foldl_cons, List.foldl_nil, ← ih hnys]
      rfl

theorem foldl_max_attained (l : List ℕ) :
    l.foldl max 0 = 0 ∨ l.foldl max 0 ∈ l := by
  induction l using List.reverseRecOn with
  | nil => exact Or.inl rfl
  | append_singleton ys a ih =>
      rw [List.foldl_append, List.foldl_cons, List.foldl_nil]
      rcases le_total (ys.foldl max 0) a with h | h
      · rw [max_eq_right h]
        exact Or.inr (List.mem_append_right ys (List.mem_singleton.mpr rfl))
      · rw [max_eq_left h]
        rcases ih with h0 | hmem
        · exact Or.inl h0
        · exact Or.inr (List.mem_append_left _ hmem)

theorem getD_replicate (L l : ℕ) :
    (List.replicate L ([] : List String)).getD l [] = [] := by
  induction L generalizing l with
  | zero => cases l <;> rfl
  | succ L ih =>
      cases l with
      | zero => rfl
      | succ l => exact ih l

theorem levelsFold_spec (b : String → Nat) (L : Nat) (xs : List String)
    (hb : ∀ x ∈ xs, b x < L) :
    (xs.foldl (fun levels x => pushAt levels (b x) x)
        (List.replicate L ([] : List String))).length = L ∧
      ∀ l, l < L →
        (xs.foldl (fun levels x => pushAt levels (b x) x)
          (List.replicate L ([] : List String))).getD l [] =
          xs.filter (fun x => b x == l) := by
  induction xs using List.reverseRecOn with
  | nil =>
      refine ⟨List.length_replicate L [], ?_⟩
      intro l _
      rw [List.foldl_nil, getD_replicate]
      rfl
  | append_singleton ys x ih =>
      have hbys : ∀ y ∈ ys, b y < L := fun y hy => hb y (List.mem_append_left _ hy)
      have hbx : b x < L := hb x (List.mem_append_right ys (List.mem_singleton.mpr rfl))
      rcases ih hbys with ⟨ihlen, ihget⟩
      rw [List.foldl_append, List.foldl_cons, List.foldl_nil]
      set F := ys.foldl (fun levels x => pushAt levels (b x) x)
        (List.replicate L ([] : List String)) with hF
      have hlen : (pushAt F (b x) x).length = L := by
        unfold pushAt
        rw [List.length_set]
        exact ihlen
      refine ⟨hlen, ?_⟩
      intro l hl
      by_cases hlx : b x = l
      · subst hlx
        unfold pushAt List.getD
        rw [List.get?_set_eq_of_lt _ (by rw [ihlen]; exact hbx)]
        rw [List.filter_append]
        simp only [Option.getD_some]
        have hfx : List.filter (fun y => b y == b x) [x] = [x] := by
          simp [List.filter]
        rw [hfx, ← ihget (b x) hbx]
        rfl
      · unfold pushAt List.getD
        rw [List.get?_set_ne _ _ hlx]
        rw [List.filter_append]
        have hbeq : (b x == l) = false := by simp [hlx]
        have hfx : List.filter (fun y => b y == l) [x] = [] := by
          simp [List.filter, hbeq]
        rw [hfx, List.append_nil, ← ihget l hl]
        rfl

theorem compute_levels_eq_fold (sorted : List String) (pa : String → List String) :
    compute_levels sorted pa =
      sorted.foldl
        (fun levels x =>
          pushAt levels (((assignLevels pa sorted).1 x).getD 0) x)
        (List.replicate ((assignLevels pa sorted).2 + 1) ([] : List String)) := rfl

theorem levels_bound (pa : String → List String) (sorted : List String) :
    ∀ x ∈ sorted, ((assignLevels pa sorted).1 x).getD 0 <
      (assignLevels pa sorted).2 + 1 := by
  intro x _
  cases hx : (assignLevels pa sorted).1 x with
  | none => simp
  | some v =>
      have := foldAL_bound pa sorted (fun _ => none, 0)
        (fun y w h => by cases h) x v
      rw [assignLevels_eq_foldl] at hx
      have hv := this hx
      rw [assignLevels_eq_foldl]
      simpa using Nat.lt_succ_of_le hv

/-- C6, counterexample to the claim as stated: the empty list is a valid
topological order of the empty parents map, yet `compute_levels` emits one
level and that level is empty — the emitted levels are not all non-empty
("no gaps" fails for the degenerate empty input). -/
theorem claim_C6_counterexample :
    ValidTopo [] (fun _ => []) ∧
      compute_levels [] (fun _ => []) = [[]] ∧
      [] ∈ compute_levels [] (fun _ => []) := by
  refine ⟨⟨List.nodup_nil, ?_⟩, rfl, ?_⟩
  · intro x hx
    cases hx
  · rw [show compute_levels [] (fun _ => []) = [[]] from rfl]
    exact List.mem_singleton.mpr rfl

/-- C6 as amended: for every valid topological order, every node's assigned
level is `1 + max(parent levels)` (`0` when it has no parents); the result
has exactly `max_level + 1` levels; level `l` is exactly the sublist of
`sorted` at level `l`, preserving input order; and when the order is
non-empty every level `0..max_level` is inhabited (no gaps).  For the empty
order the result is a single empty level. -/
theorem claim_C6_compute_levels (sorted : List String) (pa : String → List String)
    (hval : ValidTopo sorted pa) :
    (∀ x ∈ sorted,
        (pa x = [] → (assignLevels pa sorted).1 x = some 0) ∧
        (pa x ≠ [] → ∃ m,
          ((pa x).filterMap (assignLevels pa sorted).1).max? = some m ∧
            (assignLevels pa sorted).1 x = some (m + 1))) ∧
      (compute_levels sorted pa).length = (assignLevels pa sorted).2 + 1 ∧
      (∀ l, l < (assignLevels pa sorted).2 + 1 →
        (compute_levels sorted pa).getD l [] =
          sorted.filter (fun x => ((assignLevels pa sorted).1 x).getD 0 == l)) ∧
      (sorted ≠ [] → ∀ l, l ≤ (assignLevels pa sorted).2 →
        ∃ x ∈ sorted, (assignLevels pa sorted).1 x = some l) := by
  have hfix := assignLevels_fixpoint pa sorted hval
  have hchar : ∀ x ∈ sorted,
      (pa x = [] → (assignLevels pa sorted).1 x = some 0) ∧
      (pa x ≠ [] → ∃ m,
        ((pa x).filterMap (assignLevels pa sorted).1).max? = some m ∧
          (assignLevels pa sorted).1 x = some (m + 1)) := by
    intro x hx
    constructor
    · intro hpe
      have := hfix x hx
      rw [hpe] at this
      exact this
    · intro hpne
      have hx2 := hfix x hx
      have hne : (pa x).filterMap (assignLevels pa sorted).1 ≠ [] := by
        rcases List.exists_mem_of_ne_nil _ hpne with ⟨p, hp⟩
        have hps : p ∈ sorted := (hval.2 x hx p hp).1
        have hsome : ((assignLevels pa sorted).1 p).isSome = true := by
          rw [assignLevels_eq_foldl]
          exact (foldAL_isSome pa sorted _ p).mpr (Or.inr hps)
        rcases Option.isSome_iff_exists.mp hsome with ⟨v, hv⟩
        exact List.ne_nil_of_mem (List.mem_filterMap.mpr ⟨p, hp, hv⟩)
      cases hm : ((pa x).filterMap (assignLevels pa sorted).1).max? with
      | none => exact absurd (List.max?_eq_none_iff.mp hm) hne
      | some m =>
          refine ⟨m, rfl, ?_⟩
          unfold lvOf at hx2
          rw [hm] at hx2
          exact hx2
  refine ⟨hchar, ?_, ?_, ?_⟩
  · rw [compute_levels_eq_fold]
    exact (levelsFold_spec _ _ sorted (levels_bound pa sorted)).1
  · intro l hl
    rw [compute_levels_eq_fold]
    exact (levelsFold_spec _ _ sorted (levels_bound pa sorted)).2 l hl
  · intro hne l hl
    have hx0 : ∃ x ∈ sorted, (assignLevels pa sorted).1 x = some 0 := by
      cases sorted with
      | nil => exact absurd rfl hne
      | cons x0 rest =>
          have hx0mem : x0 ∈ x0 :: rest := List.mem_cons_self x0 rest
          have hp0 : pa x0 = [] := by
            rw [List.eq_nil_iff_forall_not_mem]
            intro p hp
            have := (hval.2 x0 hx0mem p hp).2
            rw [List.indexOf_cons_self] at this
            omega
          exact ⟨x0, hx0mem, (hchar x0 hx0mem).1 hp0⟩
    have hdesc : ∀ l2, (∃ x ∈ sorted, (assignLevels pa sorted).1 x = some (l2 + 1)) →
        ∃ x ∈ sorted, (assignLevels pa sorted).1 x = some l2 := by
      rintro l2 ⟨x, hx, hxl⟩
      have hpne : pa x ≠ [] := by
        intro hpe
        have := (hchar x hx).1 hpe
        rw [this] at hxl
        cases hxl
      rcases (hchar x hx).2 hpne with ⟨m, hm, hxm⟩
      rw [hxm] at hxl
      have hml : m = l2 := by
        injection hxl with h
        omega
      subst hml
      have hmmem := List.max?_mem (fun a b => max_choice a b) hm
      rcases List.mem_filterMap.mp hmmem with ⟨p, hp, hpv⟩
      exact ⟨p, (hval.2 x hx p hp).1, hpv⟩
    have hmax : ∃ x ∈ sorted, (assignLevels pa sorted).1 x =
        some (assignLevels pa sorted).2 := by
      have hme := assignLevels_max_eq pa sorted hval.1
      rcases foldl_max_attained
        (sorted.map (fun x => ((assignLevels pa sorted).1 x).getD 0)) with h0 | hmem
      · rw [← hme] at h0
        rw [h0]
        exact hx0
      · rw [← hme] at hmem
        rcases List.mem_map.mp hmem with ⟨x, hx, hxv⟩
        have hsome : ((assignLevels pa sorted).1 x).isSome = true := by
          rw [assignLevels_eq_foldl]
          exact (foldAL_isSome pa sorted _ x).mpr (Or.inr hx)
        rcases Option.isSome_iff_exists.mp hsome with ⟨v, hv⟩
        refine ⟨x, hx, ?_⟩
        rw [hv] at hxv ⊢
        simp only [Option.getD_some] at hxv
        rw [hxv]
    have hdown : ∀ d l2, l2 + d = (assignLevels pa sorted).2 →
        ∃ x ∈ sorted, (assignLevels pa sorted).1 x = some l2 := by
      intro d
      induction d with
      | zero =>
          intro l2 h
          rw [Nat.add_zero] at h
          rw [h]
          exact hmax
      | succ d ihd =>
          intro l2 h
          exact hdesc l2 (ihd (l2 + 1) (by omega))
    exact hdown ((assignLevels pa sorted).2 - l) l (by omega)

/-- Witness for the amended C6 on the spec's linear flow `t → s → e`:
levels `[[t],[s],[e]]`, level of `s` is `1 + level of t`, and the order is
non-empty so every level `0..2` is inhabited. -/
theorem claim_C6_compute_levels_witness :
    (compute_levels ["t", "s", "e"]
        (fun x => if x = "s" then ["t"] else if x = "e" then ["s"] else [])).length =
      (assignLevels
        (fun x => if x = "s" then ["t"] else if x = "e" then ["s"] else [])
        ["t", "s", "e"]).2 + 1 ∧
      compute_levels ["t", "s", "e"]
        (fun x => if x = "s" then ["t"] else if x = "e" then ["s"] else []) =
        [["t"], ["s"], ["e"]] ∧
      (∃ x ∈ ["t", "s", "e"],
        (assignLevels
          (fun x => if x = "s" then ["t"] else if x = "e" then ["s"] else [])
          ["t", "s", "e"]).1 x = some 1) := by
  have h := claim_C6_compute_levels ["t", "s", "e"]
    (fun x => if x = "s" then ["t"] else if x = "e" then ["s"] else [])
    (by
      constructor
      · decide
      · decide)
  refine ⟨h.2.1, by decide, ?_⟩
  exact h.2.2.2 (by decide) 1 (by decide)

theorem mem_childrenOf (nodes : List Node) (edges : List Edge) (u x : String) :
    x ∈ childrenOf nodes edges u ↔
      ∃ e ∈ edges, retainedEdge nodes e = true ∧ e.source = u ∧ e.target = x := by
  unfold childrenOf
  rw [List.mem_map]
  constructor
  · rintro ⟨e, he, hx⟩
    rcases List.mem_filter.mp he with ⟨hmem, hcond⟩
    simp only [Bool.and_eq_true] at hcond
    rcases hcond with ⟨hret, hsrc⟩
    exact ⟨e, hmem, hret, by simpa using hsrc, hx⟩
  · rintro ⟨e, hmem, hret, hsrc, htgt⟩
    exact ⟨e, List.mem_filter.mpr ⟨hmem, by simp [hret, hsrc]⟩, htgt⟩

theorem mem_parentsOf (nodes : List Node) (edges : List Edge) (u x : String) :
    u ∈ parentsOf nodes edges x ↔
      ∃ e ∈ edges, retainedEdge nodes e = true ∧ e.source = u ∧ e.target = x := by
  unfold parentsOf
  rw [List.mem_map]
  constructor
  · rintro ⟨e, he, hu⟩
    rcases List.mem_filter.mp he with ⟨hmem, hcond⟩
    simp only [Bool.and_eq_true] at hcond
    rcases hcond with ⟨hret, htgt⟩
    exact ⟨e, hmem, hret, hu, by simpa using htgt⟩
  · rintro ⟨e, hmem, hret, hsrc, htgt⟩
    exact ⟨e, List.mem_filter.mpr ⟨hmem, by simp [hret, htgt]⟩, hsrc⟩

theorem children_parents_duality (nodes : List Node) (edges : List Edge)
    (u x : String) :
    x ∈ childrenOf nodes edges u ↔ u ∈ parentsOf nodes edges x := by
  rw [mem_childrenOf, mem_parentsOf]

theorem retained_mem_nodeIds (nodes : List Node) (e : Edge)
    (h : retainedEdge nodes e = true) :
    e.source ∈ nodeIds nodes ∧ e.target ∈ nodeIds nodes := by
  unfold retainedEdge at h
  simp only [Bool.and_eq_true] at h
  rcases h with ⟨hs, ht⟩
  exact ⟨List.mem_of_elem_eq_true hs, List.mem_of_elem_eq_true ht⟩

theorem childrenOf_mem_nodeIds (nodes : List Node) (edges : List Edge)
    (u x : String) (h : x ∈ childrenOf nodes edges u) :
    u ∈ nodeIds nodes ∧ x ∈ nodeIds nodes := by
  rcases (mem_childrenOf nodes edges u x).mp h with ⟨e, _, hret, hsrc, htgt⟩
  rcases retained_mem_nodeIds nodes e hret with ⟨h1, h2⟩
  exact ⟨hsrc ▸ h1, htgt ▸ h2⟩

theorem parentsOf_mem_nodeIds (nodes : List Node) (edges : List Edge)
    (u x : String) (h : u ∈ parentsOf nodes edges x) :
    u ∈ nodeIds nodes ∧ x ∈ nodeIds nodes := by
  rcases (mem_parentsOf nodes edges u x).mp h with ⟨e, _, hret, hsrc, htgt⟩
  rcases retained_mem_nodeIds nodes e hret with ⟨h1, h2⟩
  exact ⟨hsrc ▸ h1, htgt ▸ h2⟩

theorem count_children_parents (nodes : List Node) (edges : List Edge)
    (u x : String) :
    List.count x (childrenOf nodes edges u) =
      List.count u (parentsOf nodes edges x) :=
  (count_childrenOf nodes edges u x).trans (count_parentsOf nodes edges u x).symm

theorem countP_mem_append_singleton (P srt : List String) (q : String)
    (hq : q ∉ srt) :
    P.countP (fun u => decide (u ∈ srt ++ [q])) =
      P.countP (fun u => decide (u ∈ srt)) + P.count q := by
  induction P with
  | nil => rfl
  | cons u P ih =>
      rw [List.countP_cons, List.countP_cons, List.count_cons, ih]
      by_cases hu : u = q
      · subst hu
        have h1 : decide (u ∈ srt ++ [u]) = true := by
          simp
        have h2 : decide (u ∈ srt) = false := by
          simpa using hq
        rw [h1, h2]
        simp
        omega
      · have h1 : decide (u ∈ srt ++ [q]) = decide (u ∈ srt) := by
          simp [hu]
        have h2 : (u == q) = false := by
          simpa using hu
        rw [h1, h2]
        simp [Nat.add_assoc, Nat.add_comm, Nat.add_left_comm]

theorem decSo_nil (nodes : List Node) (edges : List Edge) (x : String) :
    decSo nodes edges [] x = 0 := by
  unfold decSo
  rw [List.countP_eq_length_filter]
  simp

theorem decSo_snoc (nodes : List Node) (edges : List Edge) (srt : List String)
    (q x : String) (hq : q ∉ srt) :
    decSo nodes edges (srt ++ [q]) x =
      decSo nodes edges srt x + List.count q (parentsOf nodes edges x) :=
  countP_mem_append_singleton _ srt q hq

theorem decSo_le (nodes : List Node) (edges : List Edge) (srt : List String)
    (x : String) : decSo nodes edges srt x ≤ indeg0 nodes edges x :=
  List.countP_le_length _

theorem parents_mem_of_decSo_eq (nodes : List Node) (edges : List Edge)
    (srt : List String) (x : String)
    (h : decSo nodes edges srt x = indeg0 nodes edges x) :
    ∀ u ∈ parentsOf nodes edges x, u ∈ srt := by
  intro u hu
  have := List.countP_eq_length.mp h u hu
  simpa using this

theorem exists_parent_not_mem_of_decSo_lt (nodes : List Node) (edges : List Edge)
    (srt : List String) (x : String)
    (h : decSo nodes edges srt x < indeg0 nodes edges x) :
    ∃ u ∈ parentsOf nodes edges x, u ∉ srt := by
  by_contra hall
  push_neg at hall
  have : decSo nodes edges srt x = indeg0 nodes edges x :=
    List.countP_eq_length.mpr (fun u hu => by simpa using hall u hu)
  omega

theorem count_cons_ne (x c : String) (cs : List String) (h : x ≠ c) :
    (c :: cs).count x = cs.count x := by
  rw [List.count_cons]
  have : (c == x) = false := by simpa using (Ne.symm h)
  rw [this]
  simp

theorem processNeighbors_spec (L : List String) :
    ∀ (ind : String → Nat), (∀ x, L.count x ≤ ind x) →
      (∀ x, (processNeighbors ind L).1 x = ind x - L.count x) ∧
        (processNeighbors ind L).2.Nodup ∧
        (∀ x, x ∈ (processNeighbors ind L).2 ↔ x ∈ L ∧ ind x = L.count x) := by
  induction L with
  | nil =>
      intro ind _
      refine ⟨fun x => by simp [processNeighbors], by simp [processNeighbors], ?_⟩
      intro x
      simp [processNeighbors]
  | cons c cs ih =>
      intro ind hbound
      have hcc : (c :: cs).count c = cs.count c + 1 := List.count_cons_self c cs
      have hbound2 : ∀ x, cs.count x ≤ Function.update ind c (ind c - 1) x := by
        intro x
        by_cases hx : x = c
        · subst hx
          rw [Function.update_same]
          have := hbound x
          rw [hcc] at this
          omega
        · rw [Function.update_noteq hx]
          have := hbound x
          rw [count_cons_ne x c cs hx] at this
          exact this
      rcases ih (Function.update ind c (ind c - 1)) hbound2 with ⟨ih1, ih2, ih3⟩
      have hpn : processNeighbors ind (c :: cs) =
          ((processNeighbors (Function.update ind c (ind c - 1)) cs).1,
            (if ind c - 1 = 0 then [c] else []) ++
              (processNeighbors (Function.update ind c (ind c - 1)) cs).2) := rfl
      rw [hpn]
      have hindc1 : 1 ≤ ind c := le_trans (by rw [hcc]; omega) (hbound c)
      refine ⟨?_, ?_, ?_⟩
      · intro x
        by_cases hx : x = c
        · subst hx
          rw [ih1 x, Function.update_same, hcc]
          omega
        · rw [ih1 x, Function.update_noteq hx, count_cons_ne x c cs hx]
      · by_cases hd : ind c - 1 = 0
        · rw [if_pos hd]
          refine List.nodup_cons.mpr ⟨?_, ih2⟩
          intro hmem
          rcases (ih3 c).mp hmem with ⟨hcs, hval⟩
          rw [Function.update_same] at hval
          have : 1 ≤ cs.count c := List.count_pos_iff_mem.mpr hcs
          omega
        · rw [if_neg hd]
          exact ih2
      · intro x
        by_cases hx : x = c
        · subst hx
          constructor
          · intro hmem
            rcases List.mem_append.mp hmem with h | h
            · have hd : ind x - 1 = 0 := by
                by_contra hd
                rw [if_neg hd] at h
                cases h
              refine ⟨List.mem_cons_self x cs, ?_⟩
              rw [hcc]
              have hle := hbound x
              rw [hcc] at hle
              omega
            · rcases (ih3 x).mp h with ⟨hcs, hval⟩
              rw [Function.update_same] at hval
              refine ⟨List.mem_cons_self x cs, ?_⟩
              rw [hcc]
              omega
          · rintro ⟨_, hval⟩
            rw [hcc] at hval
            by_cases hcs : x ∈ cs
            · refine List.mem_append.mpr (Or.inr ?_)
              refine (ih3 x).mpr ⟨hcs, ?_⟩
              rw [Function.update_same]
              omega
            · have hcnt : cs.count x = 0 := by
                rw [List.count_eq_zero]
                exact hcs
              rw [hcnt] at hval
              have hd : ind x - 1 = 0 := by omega
              refine List.mem_append.mpr (Or.inl ?_)
              rw [if_pos hd]
              exact List.mem_singleton.mpr rfl
        · rw [List.mem_append]
          have hhead : x ∉ (if ind c - 1 = 0 then [c] else []) := by
            by_cases hd : ind c - 1 = 0
            · rw [if_pos hd]
              simp [hx]
            · rw [if_neg hd]
              simp
          constructor
          · rintro (h | h)
            · exact absurd h hhead
            · rcases (ih3 x).mp h with ⟨hcs, hval⟩
              rw [Function.update_noteq hx] at hval
              exact ⟨List.mem_cons_of_mem c hcs,
                by rw [count_cons_ne x c cs hx]; exact hval⟩
          · rintro ⟨hmem, hval⟩
            rcases List.mem_cons.mp hmem with h | h
            · exact absurd h hx
            · refine Or.inr ((ih3 x).mpr ⟨h, ?_⟩)
              rw [Function.update_noteq hx]
              rw [count_cons_ne x c cs hx] at hval
              exact hval

theorem kahn_step (nodes : List Node) (edges : List Edge) (ind : String → Nat)
    (q : String) (qs srt : List String)
    (inv : KInv nodes edges ind (q :: qs) srt) :
    KInv nodes edges (processNeighbors ind (childrenOf nodes edges q)).1
      (qs ++ (processNeighbors ind (childrenOf nodes edges q)).2) (srt ++ [q]) := by
  have hqV : q ∈ nodeIds nodes :=
    inv.sub q (List.mem_append_right srt (List.mem_cons_self q qs))
  rcases List.nodup_append.mp inv.nodup with ⟨hndsrt, hndq, hdisj⟩
  have hqsrt : q ∉ srt := fun h => hdisj h (List.mem_cons_self q qs)
  have hqqs : q ∉ qs := (List.nodup_cons.mp hndq).1
  have hndqs : qs.Nodup := (List.nodup_cons.mp hndq).2
  have hqd : decSo nodes edges srt q = indeg0 nodes edges q :=
    (inv.done q hqV).mp (Or.inr (List.mem_cons_self q qs))
  have hparq : ∀ u ∈ parentsOf nodes edges q, u ∈ srt :=
    parents_mem_of_decSo_eq nodes edges srt q hqd
  have hqch : List.count q (parentsOf nodes edges q) = 0 :=
    List.count_eq_zero.mpr (fun h => hqsrt (hparq q h))
  have hsnoc : ∀ x, decSo nodes edges (srt ++ [q]) x =
      decSo nodes edges srt x + List.count q (parentsOf nodes edges x) :=
    fun x => decSo_snoc nodes edges srt q x hqsrt
  have hsum_le : ∀ x, decSo nodes edges srt x +
      List.count q (parentsOf nodes edges x) ≤ indeg0 nodes edges x := by
    intro x
    rw [← hsnoc x]
    exact decSo_le nodes edges (srt ++ [q]) x
  have hbound : ∀ x, (childrenOf nodes edges q).count x ≤ ind x := by
    intro x
    rw [count_children_parents, inv.deg x]
    have := hsum_le x
    omega
  rcases processNeighbors_spec (childrenOf nodes edges q) ind hbound with
    ⟨hv, hnd, hmem⟩
  have hpushedch : ∀ x ∈ (processNeighbors ind (childrenOf nodes edges q)).2,
      x ∈ childrenOf nodes edges q := fun x hx => ((hmem x).mp hx).1
  have hpushedV : ∀ x ∈ (processNeighbors ind (childrenOf nodes edges q)).2,
      x ∈ nodeIds nodes := fun x hx =>
    (childrenOf_mem_nodeIds nodes edges q x (hpushedch x hx)).2
  have hpushed_not_old :
      ∀ x ∈ (processNeighbors ind (childrenOf nodes edges q)).2,
        x ∉ srt ∧ x ∉ q :: qs := by
    intro x hx
    rcases (hmem x).mp hx with ⟨hch, hval⟩
    have hxV : x ∈ nodeIds nodes :=
      (childrenOf_mem_nodeIds nodes edges q x hch).2
    have hpos : 1 ≤ (childrenOf nodes edges q).count x :=
      List.count_pos_iff_mem.mpr hch
    have hindpos : 1 ≤ ind x := by omega
    constructor
    · intro hmem2
      have := (inv.done x hxV).mp (Or.inl hmem2)
      have := inv.deg x
      omega
    · intro hmem2
      have := (inv.done x hxV).mp (Or.inr hmem2)
      have := inv.deg x
      omega
  have hdegnew : ∀ x, (processNeighbors ind (childrenOf nodes edges q)).1 x =
      indeg0 nodes edges x - decSo nodes edges (srt ++ [q]) x := by
    intro x
    rw [hv x, inv.deg x, count_children_parents, hsnoc x]
    have := hsum_le x
    have := decSo_le nodes edges srt x
    omega
  refine ⟨?_, ?_, hdegnew, ?_, ?_⟩
  · rw [List.nodup_append]
    refine ⟨?_, ?_, ?_⟩
    · rw [List.nodup_append]
      refine ⟨hndsrt, List.nodup_singleton q, ?_⟩
      intro a ha hb
      rw [List.mem_singleton] at hb
      exact hdisj (hb ▸ ha) (List.mem_cons_self q qs)
    · rw [List.nodup_append]
      refine ⟨hndqs, hnd, ?_⟩
      intro a ha hb
      exact (hpushed_not_old a hb).2 (List.mem_cons_of_mem q ha)
    · intro a ha hb
      rcases List.mem_append.mp ha with h1 | h1
      · rcases List.mem_append.mp hb with h2 | h2
        · exact hdisj h1 (List.mem_cons_of_mem q h2)
        · exact (hpushed_not_old a h2).1 h1
      · rw [List.mem_singleton] at h1
        subst h1
        rcases List.mem_append.mp hb with h2 | h2
        · exact hqqs h2
        · exact (hpushed_not_old a h2).2 (List.mem_cons_self a qs)
  · intro x hx
    rcases List.mem_append.mp hx with h | h
    · rcases List.mem_append.mp h with h1 | h1
      · exact inv.sub x (List.mem_append_left _ h1)
      · rw [List.mem_singleton] at h1
        exact h1 ▸ hqV
    · rcases List.mem_append.mp h with h1 | h1
      · exact inv.sub x (List.mem_append_right _ (List.mem_cons_of_mem q h1))
      · exact hpushedV x h1
  · intro x hxV
    constructor
    · intro hx
      rcases hx with h | h
      · rcases List.mem_append.mp h with h1 | h1
        · have h2 := (inv.done x hxV).mp (Or.inl h1)
          have := hsum_le x
          rw [hsnoc x]
          omega
        · rw [List.mem_singleton] at h1
          subst h1
          rw [hsnoc x, hqch]
          omega
      · rcases List.mem_append.mp h with h1 | h1
        · have h2 := (inv.done x hxV).mp (Or.inr (List.mem_cons_of_mem q h1))
          have := hsum_le x
          rw [hsnoc x]
          omega
        · rcases (hmem x).mp h1 with ⟨hch, hval⟩
          rw [count_children_parents] at hval
          have := inv.deg x
          have := decSo_le nodes edges srt x
          rw [hsnoc x]
          omega
    · intro hdx
      by_cases hold : decSo nodes edges srt x = indeg0 nodes edges x
      · rcases (inv.done x hxV).mpr hold with h | h
        · exact Or.inl (List.mem_append_left _ h)
        · rcases List.mem_cons.mp h with h1 | h1
          · exact Or.inl (List.mem_append_right _
              (List.mem_singleton.mpr h1))
          · exact Or.inr (List.mem_append_left _ h1)
      · have hlt : decSo nodes edges srt x < indeg0 nodes edges x :=
          lt_of_le_of_ne (decSo_le nodes edges srt x) hold
        rw [hsnoc x] at hdx
        have hcpos : 1 ≤ List.count q (parentsOf nodes edges x) := by omega
        have hqpar : q ∈ parentsOf nodes edges x := by
          by_contra h
          rw [List.count_eq_zero.mpr h] at hcpos
          omega
        have hxch : x ∈ childrenOf nodes edges q :=
          (children_parents_duality nodes edges q x).mpr hqpar
        refine Or.inr (List.mem_append_right _ ((hmem x).mpr ⟨hxch, ?_⟩))
        rw [count_children_parents, inv.deg x]
        omega
  · intro u x hch hx
    rcases List.mem_append.mp hx with h | h
    · rcases inv.ord u x hch h with ⟨hu, hlt⟩
      refine ⟨List.mem_append_left _ hu, ?_⟩
      rw [List.indexOf_append_of_mem hu, List.indexOf_append_of_mem h]
      exact hlt
    · rw [List.mem_singleton] at h
      subst h
      have hupar : u ∈ parentsOf nodes edges x :=
        (children_parents_duality nodes edges u x).mp hch
      have huS : u ∈ srt := hparq u hupar
      refine ⟨List.mem_append_left _ huS, ?_⟩
      rw [List.indexOf_append_of_mem huS, indexOf_middle x srt [] hqsrt]
      exact List.indexOf_lt_length.mpr huS

theorem kahn_final (nodes : List Node) (edges : List Edge) (ind : String → Nat)
    (srt : List String) (inv : KInv nodes edges ind [] srt) :
    srt.Nodup ∧ (∀ x ∈ srt, x ∈ nodeIds nodes) ∧
      (∀ x ∈ nodeIds nodes,
        (x ∈ srt ↔ decSo nodes edges srt x = indeg0 nodes edges x)) ∧
      (∀ u x, x ∈ childrenOf nodes edges u → x ∈ srt →
        u ∈ srt ∧ srt.indexOf u < srt.indexOf x) := by
  refine ⟨?_, ?_, ?_, inv.ord⟩
  · have := inv.nodup
    rwa [List.append_nil] at this
  · intro x hx
    exact inv.sub x (List.mem_append_left _ hx)
  · intro x hxV
    have := inv.done x hxV
    simpa using this

theorem kahn_master (nodes : List Node) (edges : List Edge) :
    ∀ (fuel : Nat) (ind : String → Nat) (queue srt : List String),
      KInv nodes edges ind queue srt →
      nodes.length ≤ srt.length + fuel →
      (kahnLoop (childrenOf nodes edges) fuel ind queue srt).Nodup ∧
        (∀ x ∈ kahnLoop (childrenOf nodes edges) fuel ind queue srt,
          x ∈ nodeIds nodes) ∧
        (∀ x ∈ nodeIds nodes,
          (x ∈ kahnLoop (childrenOf nodes edges) fuel ind queue srt ↔
            decSo nodes edges (kahnLoop (childrenOf nodes edges) fuel ind queue srt) x =
              indeg0 nodes edges x)) ∧
        (∀ u x, x ∈ childrenOf nodes edges u →
          x ∈ kahnLoop (childrenOf nodes edges) fuel ind queue srt →
          u ∈ kahnLoop (childrenOf nodes edges) fuel ind queue srt ∧
            (kahnLoop (childrenOf nodes edges) fuel ind queue srt).indexOf u <
              (kahnLoop (childrenOf nodes edges) fuel ind queue srt).indexOf x) := by
  intro fuel
  induction fuel with
  | zero =>
      intro ind queue srt inv hbound
      cases queue with
      | nil => exact kahn_final nodes edges ind srt inv
      | cons y ys =>
          exfalso
          have hsp : (srt ++ y :: ys).Subperm (nodeIds nodes) :=
            List.subperm_of_subset inv.nodup inv.sub
          have hlen := List.Subperm.length_le hsp
          rw [List.length_append, List.length_cons] at hlen
          have : (nodeIds nodes).length = nodes.length := List.length_map _ _
          omega
  | succ fuel ih =>
      intro ind queue srt inv hbound
      cases queue with
      | nil => exact kahn_final nodes edges ind srt inv
      | cons q qs =>
          have hstep := kahn_step nodes edges ind q qs srt inv
          have hloop : kahnLoop (childrenOf nodes edges) (fuel + 1) ind (q :: qs) srt =
              kahnLoop (childrenOf nodes edges) fuel
                (processNeighbors ind (childrenOf nodes edges q)).1
                (qs ++ (processNeighbors ind (childrenOf nodes edges q)).2)
                (srt ++ [q]) := rfl
          rw [hloop]
          apply ih _ _ _ hstep
          rw [List.length_append, List.length_singleton]
          omega

theorem zeroIds_mem (nodes : List Node) (edges : List Edge) (x : String) :
    x ∈ zeroIds nodes edges ↔
      x ∈ nodeIds nodes ∧ indeg0 nodes edges x = 0 := by
  unfold zeroIds
  rw [List.mem_filter]
  simp

theorem kahn_init (nodes : List Node) (edges : List Edge) (init : List String)
    (hnd : (nodeIds nodes).Nodup) (hperm : init.Perm (zeroIds nodes edges)) :
    KInv nodes edges (indeg0 nodes edges) init [] := by
  refine ⟨?_, ?_, ?_, ?_, ?_⟩
  · rw [List.nil_append]
    exact (hperm.nodup_iff).mpr (List.Nodup.filter _ hnd)
  · intro x hx
    rw [List.nil_append] at hx
    exact ((zeroIds_mem nodes edges x).mp (hperm.mem_iff.mp hx)).1
  · intro x
    rw [decSo_nil]
    omega
  · intro x hxV
    rw [decSo_nil]
    constructor
    · rintro (h | h)
      · cases h
      · exact ((zeroIds_mem nodes edges x).mp (hperm.mem_iff.mp h)).2.symm
    · intro h
      exact Or.inr (hperm.mem_iff.mpr
        ((zeroIds_mem nodes edges x).mpr ⟨hxV, h.symm⟩))
  · intro u x _ hx
    cases hx

theorem cycle_of_all_pred (R : String → String → Prop) (U : List String)
    (hne : U ≠ []) (hpred : ∀ y ∈ U, ∃ u, u ∈ U ∧ R u y) :
    ∃ a, Relation.TransGen R a a := by
  let g : ℕ → {y : String // y ∈ U} := fun n =>
    Nat.rec (motive := fun _ => {y : String // y ∈ U})
      ⟨U.head hne, List.head_mem hne⟩
      (fun _ prev => ⟨(hpred prev.1 prev.2).choose,
        (hpred prev.1 prev.2).choose_spec.1⟩) n
  have hstep : ∀ n, R (g (n + 1)).1 (g n).1 := fun n =>
    (hpred (g n).1 (g n).2).choose_spec.2
  have hchain : ∀ k n, Relation.TransGen R (g (n + k + 1)).1 (g n).1 := by
    intro k
    induction k with
    | zero => intro n; exact Relation.TransGen.single (hstep n)
    | succ k ihk =>
        intro n
        have h1 : Relation.TransGen R (g (n + 1 + k + 1)).1 (g (n + 1)).1 :=
          ihk (n + 1)
        have heq : n + (k + 1) + 1 = n + 1 + k + 1 := by omega
        rw [heq]
        exact Relation.TransGen.trans h1 (Relation.TransGen.single (hstep n))
  have hmaps : ∀ i ∈ Finset.range (U.length + 1), (g i).1 ∈ U.toFinset := by
    intro i _
    exact List.mem_toFinset.mpr (g i).2
  have hcard : U.toFinset.card < (Finset.range (U.length + 1)).card := by
    rw [Finset.card_range]
    exact Nat.lt_succ_of_le U.toFinset_card_le
  rcases Finset.exists_ne_map_eq_of_card_lt_of_maps_to hcard hmaps with
    ⟨i, _, j, _, hij, heqv⟩
  rcases Nat.lt_or_ge i j with hlt | hge
  · refine ⟨(g i).1, ?_⟩
    have hc := hchain (j - i - 1) i
    have hje : i + (j - i - 1) + 1 = j := by omega
    rw [hje] at hc
    rw [heqv] at hc ⊢
    exact hc
  · have hlt2 : j < i := lt_of_le_of_ne hge (fun h => hij h.symm)
    refine ⟨(g j).1, ?_⟩
    have hc := hchain (i - j - 1) j
    have hie : j + (i - j - 1) + 1 = i := by omega
    rw [hie] at hc
    rw [← heqv] at hc ⊢
    exact hc

theorem kahn_classification (nodes : List Node) (edges : List Edge)
    (init : List String) (hnd : (nodeIds nodes).Nodup)
    (hperm : init.Perm (zeroIds nodes edges)) :
    (Acyclic nodes edges →
      ∃ l, topoSortWith init nodes edges = .ok l ∧ l.Perm (nodeIds nodes)) ∧
      (¬ Acyclic nodes edges →
        ∃ k, topoSortWith init nodes edges =
          .error (cycleMsg k nodes.length) ∧ k < nodes.length) := by
  have hinv := kahn_init nodes edges init hnd hperm
  have hm := kahn_master nodes edges (nodes.length + edges.length + 1)
    (indeg0 nodes edges) init [] hinv
    (by rw [List.length_nil]; omega)
  set srtF := kahnLoop (childrenOf nodes edges)
    (nodes.length + edges.length + 1) (indeg0 nodes edges) init [] with hsrtF
  rcases hm with ⟨hndF, hsubF, hdoneF, hordF⟩
  have hVlen : (nodeIds nodes).length = nodes.length := List.length_map _ _
  have hlenle : srtF.length ≤ nodes.length := by
    have := List.Subperm.length_le (List.subperm_of_subset hndF hsubF)
    omega
  have htopo : topoSortWith init nodes edges =
      if srtF.length = nodes.length then Except.ok srtF
      else Except.error (cycleMsg srtF.length nodes.length) := rfl
  have hcomplete_acyclic : srtF.length = nodes.length → Acyclic nodes edges := by
    intro hlen
    have hsp : srtF.Subperm (nodeIds nodes) :=
      List.subperm_of_subset hndF hsubF
    have hp : srtF.Perm (nodeIds nodes) :=
      List.Subperm.perm_of_length_le hsp (by omega)
    have hallin : ∀ b ∈ nodeIds nodes, b ∈ srtF := fun b hb => hp.mem_iff.mpr hb
    have hstep : ∀ a b, eRel nodes edges a b →
        srtF.indexOf a < srtF.indexOf b := by
      intro a b hab
      have hbV : b ∈ nodeIds nodes :=
        (childrenOf_mem_nodeIds nodes edges a b hab).2
      exact (hordF a b hab (hallin b hbV)).2
    have htg : ∀ a b, Relation.TransGen (eRel nodes edges) a b →
        srtF.indexOf a < srtF.indexOf b := by
      intro a b h
      induction h with
      | single hs => exact hstep _ _ hs
      | tail _ hs ihs => exact lt_trans ihs (hstep _ _ hs)
    intro a ha
    exact absurd (htg a a ha) (lt_irrefl _)
  have hincomplete_cycle : srtF.length ≠ nodes.length → ¬ Acyclic nodes edges := by
    intro hlen
    have hex : ∃ x ∈ nodeIds nodes, x ∉ srtF := by
      by_contra hall
      push_neg at hall
      have hsp : (nodeIds nodes).Subperm srtF :=
        List.subperm_of_subset hnd hall
      have := List.Subperm.length_le hsp
      omega
    rcases hex with ⟨x0, hx0V, hx0F⟩
    have hU : ∀ y ∈ (nodeIds nodes).filter (fun y => decide (y ∉ srtF)),
        ∃ u, u ∈ (nodeIds nodes).filter (fun y => decide (y ∉ srtF)) ∧
          eRel nodes edges u y := by
      intro y hy
      rcases List.mem_filter.mp hy with ⟨hyV, hyF⟩
      have hyF2 : y ∉ srtF := by simpa using hyF
      have hne2 : decSo nodes edges srtF y ≠ indeg0 nodes edges y :=
        fun h => hyF2 ((hdoneF y hyV).mpr h)
      have hlt : decSo nodes edges srtF y < indeg0 nodes edges y :=
        lt_of_le_of_ne (decSo_le nodes edges srtF y) hne2
      rcases exists_parent_not_mem_of_decSo_lt nodes edges srtF y hlt with
        ⟨u, hupar, huF⟩
      have huV : u ∈ nodeIds nodes :=
        (parentsOf_mem_nodeIds nodes edges u y hupar).1
      refine ⟨u, List.mem_filter.mpr ⟨huV, by simpa using huF⟩, ?_⟩
      exact (children_parents_duality nodes edges u y).mpr hupar
    have hUne : (nodeIds nodes).filter (fun y => decide (y ∉ srtF)) ≠ [] :=
      List.ne_nil_of_mem (List.mem_filter.mpr ⟨hx0V, by simpa using hx0F⟩)
    rcases cycle_of_all_pred (eRel nodes edges) _ hUne hU with ⟨a, hcyc⟩
    intro hacyc
    exact hacyc a hcyc
  constructor
  · intro hacyc
    have hlen : srtF.length = nodes.length := by
      by_contra h
      exact (hincomplete_cycle h) hacyc
    refine ⟨srtF, ?_, ?_⟩
    · rw [htopo, if_pos hlen]
    · exact List.Subperm.perm_of_length_le
        (List.subperm_of_subset hndF hsubF) (by omega)
  · intro hnacyc
    have hlen : srtF.length ≠ nodes.length := by
      intro h
      exact hnacyc (hcomplete_acyclic h)
    exact ⟨srtF.length, by rw [htopo, if_neg hlen], lt_of_le_of_ne hlenle hlen⟩

/-- C3: for node-unique inputs, with the initial queue being the
zero-in-degree ids in any iteration order of the `in_degree` map, an acyclic
induced graph makes `topo_sort` return a permutation of the node ids, and a
cyclic one makes it return the error
`"flow graph has a cycle (k of n nodes sorted)"` with `k` the number of
sorted nodes and `k < n`. -/
theorem claim_C3_topo_sort (nodes : List Node) (edges : List Edge)
    (init : List String) (hnd : (nodeIds nodes).Nodup)
    (hperm : init.Perm (zeroIds nodes edges)) :
    (Acyclic nodes edges →
      ∃ l, topoSortWith init nodes edges = .ok l ∧ l.Perm (nodeIds nodes)) ∧
      (¬ Acyclic nodes edges →
        ∃ k, topoSortWith init nodes edges =
          .error (cycleMsg k nodes.length) ∧ k < nodes.length) :=
  kahn_classification nodes edges init hnd hperm

/-- Witness for C3: the two-node edgeless graph is acyclic and sorts to a
permutation of its ids; the two-node two-cycle reports the cycle error with
1 of 2 nodes sorted... in fact `k < 2`. -/
theorem claim_C3_topo_sort_witness :
    (∃ l, topoSortWith
        (zeroIds [⟨"a", .source, "t", "a"⟩, ⟨"b", .source, "t", "b"⟩] [])
        [⟨"a", .source, "t", "a"⟩, ⟨"b", .source, "t", "b"⟩] [] = .ok l ∧
      l.Perm (nodeIds [⟨"a", .source, "t", "a"⟩, ⟨"b", .source, "t", "b"⟩])) ∧
      (∃ k, topoSortWith
          (zeroIds [⟨"a", .source, "t", "a"⟩, ⟨"b", .source, "t", "b"⟩]
            [⟨"e1", "a", "b"⟩, ⟨"e2", "b", "a"⟩])
          [⟨"a", .source, "t", "a"⟩, ⟨"b", .source, "t", "b"⟩]
          [⟨"e1", "a", "b"⟩, ⟨"e2", "b", "a"⟩] =
        .error (cycleMsg k 2) ∧ k < 2) := by
  constructor
  · have h := claim_C3_topo_sort
      [⟨"a", .source, "t", "a"⟩, ⟨"b", .source, "t", "b"⟩] []
      (zeroIds [⟨"a", .source, "t", "a"⟩, ⟨"b", .source, "t", "b"⟩] [])
      (by decide) (List.Perm.refl _)
    refine h.1 ?_
    intro a hcyc
    have hno : ∀ u x : String,
        ¬ eRel [⟨"a", .source, "t", "a"⟩, ⟨"b", .source, "t", "b"⟩] [] u x := by
      intro u x hux
      simp [eRel, childrenOf] at hux
    cases hcyc with
    | single hs => exact hno _ _ hs
    | tail _ hs => exact hno _ _ hs
  · have h := claim_C3_topo_sort
      [⟨"a", .source, "t", "a"⟩, ⟨"b", .source, "t", "b"⟩]
      [⟨"e1", "a", "b"⟩, ⟨"e2", "b", "a"⟩]
      (zeroIds [⟨"a", .source, "t", "a"⟩, ⟨"b", .source, "t", "b"⟩]
        [⟨"e1", "a", "b"⟩, ⟨"e2", "b", "a"⟩])
      (by decide) (List.Perm.refl _)
    refine h.2 ?_
    intro hacyc
    have hab : eRel [⟨"a", .source, "t", "a"⟩, ⟨"b", .source, "t", "b"⟩]
        [⟨"e1", "a", "b"⟩, ⟨"e2", "b", "a"⟩] "a" "b" := by
      show "b" ∈ childrenOf _ _ "a"
      decide
    have hba : eRel [⟨"a", .source, "t", "a"⟩, ⟨"b", .source, "t", "b"⟩]
        [⟨"e1", "a", "b"⟩, ⟨"e2", "b", "a"⟩] "b" "a" := by
      show "a" ∈ childrenOf _ _ "b"
      decide
    exact hacyc "a"
      (Relation.TransGen.tail (Relation.TransGen.single hab) hba)

/-- C7, counterexample to the claim as stated: the initial Kahn queue is
collected by iterating the `in_degree` `HashMap`, whose iteration order is
unspecified — it is NOT the declaration order of `nodes`.  For two
equal-in-degree nodes, the admissible iteration order `["b", "a"]` yields
the sorted sequence `["b", "a"]`, different from the declaration order
`["a", "b"]` produced by the other admissible order, so the output is not
stable across runs. -/
theorem claim_C7_counterexample :
    List.Perm ["b", "a"]
      (zeroIds [⟨"a", .source, "t", "a"⟩, ⟨"b", .source, "t", "b"⟩] []) ∧
      topoSortWith ["a", "b"]
        [⟨"a", .source, "t", "a"⟩, ⟨"b", .source, "t", "b"⟩] [] =
        Except.ok ["a", "b"] ∧
      topoSortWith ["b", "a"]
        [⟨"a", .source, "t", "a"⟩, ⟨"b", .source, "t", "b"⟩] [] =
        Except.ok ["b", "a"] ∧
      topoSortWith ["b", "a"]
        [⟨"a", .source, "t", "a"⟩, ⟨"b", .source, "t", "b"⟩] [] ≠
        topoSortWith ["a", "b"]
          [⟨"a", .source, "t", "a"⟩, ⟨"b", .source, "t", "b"⟩] [] := by
  refine ⟨by decide, rfl, rfl, ?_⟩
  intro h
  rw [show topoSortWith ["b", "a"]
      [⟨"a", .source, "t", "a"⟩, ⟨"b", .source, "t", "b"⟩] [] =
      Except.ok ["b", "a"] from rfl,
    show topoSortWith ["a", "b"]
      [⟨"a", .source, "t", "a"⟩, ⟨"b", .source, "t", "b"⟩] [] =
      Except.ok ["a", "b"] from rfl] at h
  injection h with h2
  exact absurd h2 (by decide)

/-- C7 as amended: nodes enqueued during the loop follow the children-list
(edge declaration) order, but the initial queue order is the unspecified
`HashMap` iteration order, so the concrete sequence is only determined up to
that order; what IS stable across admissible orders is the outcome: every
successful result is a permutation of the node ids, and success
(acyclicity) does not depend on the iteration order. -/
theorem claim_C7_enqueue_order (nodes : List Node) (edges : List Edge)
    (init1 init2 : List String) (hnd : (nodeIds nodes).Nodup)
    (h1 : init1.Perm (zeroIds nodes edges))
    (h2 : init2.Perm (zeroIds nodes edges)) :
    (∀ l, topoSortWith init1 nodes edges = .ok l → l.Perm (nodeIds nodes)) ∧
      ((∃ l, topoSortWith init1 nodes edges = .ok l) ↔
        (∃ l, topoSortWith init2 nodes edges = .ok l)) := by
  have c1 := kahn_classification nodes edges init1 hnd h1
  have c2 := kahn_classification nodes edges init2 hnd h2
  have hok_iff : ∀ (init : List String), init.Perm (zeroIds nodes edges) →
      ((∃ l, topoSortWith init nodes edges = .ok l) ↔ Acyclic nodes edges) := by
    intro init hp
    have c := kahn_classification nodes edges init hnd hp
    constructor
    · rintro ⟨l, hl⟩
      by_contra hacyc
      rcases c.2 hacyc with ⟨k, hk, _⟩
      rw [hl] at hk
      cases hk
    · intro hacyc
      rcases c.1 hacyc with ⟨l, hl, _⟩
      exact ⟨l, hl⟩
  constructor
  · intro l hl
    by_cases hacyc : Acyclic nodes edges
    · rcases c1.1 hacyc with ⟨l2, hl2, hp2⟩
      rw [hl] at hl2
      injection hl2 with he
      exact he ▸ hp2
    · rcases c1.2 hacyc with ⟨k, hk, _⟩
      rw [hl] at hk
      cases hk
  · rw [hok_iff init1 h1, hok_iff init2 h2]

/-- Witness for the amended C7: on the two-node edgeless graph, both
admissible orders succeed, and the `["b","a"]` order's output is still a
permutation of the node ids. -/
theorem claim_C7_enqueue_order_witness :
    ((∃ l, topoSortWith ["b", "a"]
        [⟨"a", .source, "t", "a"⟩, ⟨"b", .source, "t", "b"⟩] [] = .ok l) ↔
      (∃ l, topoSortWith ["a", "b"]
        [⟨"a", .source, "t", "a"⟩, ⟨"b", .source, "t", "b"⟩] [] = .ok l)) ∧
      List.Perm ["b", "a"]
        (nodeIds [⟨"a", .source, "t", "a"⟩, ⟨"b", .source, "t", "b"⟩]) := by
  have h := claim_C7_enqueue_order
    [⟨"a", .source, "t", "a"⟩, ⟨"b", .source, "t", "b"⟩] []
    ["b", "a"] ["a", "b"] (by decide) (by decide) (by decide)
  exact ⟨h.2, h.1 ["b", "a"] rfl⟩

end Cthulu
